import Mathlib

set_option maxHeartbeats 1600000

/- Shallow embedding of src/labelling.c (libkoki): thresholding and
   connected-component labelling of colour images.

   Machine-integer conventions: `uint16_t` quantities are modelled as `Nat`;
   the one place where a `uint16_t` computation can overflow for in-range
   inputs is the allocation of a fresh label (`aliases->len + 1`), which is
   therefore modelled with an explicit `% 65536`.  The `int16_t` temporaries
   of `label_pixel` coincide with plain naturals as long as every label value
   stays below 2^15; since at most one label is allocated per pixel, the
   hypothesis `width * height < 32768` used by the run-level theorems
   guarantees this. -/

/-- The `IplImage` collaborator (spec §6): a colour pixel buffer with known
width and height; `pixel x y` gives the three channel values (R, G, B).
The row stride / channel layout of the real buffer is abstracted away:
`KOKI_IPLIMAGE_ELEM` below is the only reader. -/
structure IplImage where
  width : Nat
  height : Nat
  pixel : Nat → Nat → Nat × Nat × Nat

/-- Modelled from the spec: the integer 2-D point type of the missing header
`labelling.h` (bounding-box corners, §3 RegionStats). -/
structure koki_point2Di where
  x : Nat
  y : Nat
deriving DecidableEq

/-- Modelled from the spec: the region-statistics record of the missing
header `labelling.h` (`mass`, inclusive bounding-box corners, §3). -/
structure koki_clip_region_t where
  mass : Nat
  min : koki_point2Di
  max : koki_point2Di
deriving DecidableEq

/-- Modelled from the spec plus the field usage in `labelling.c`: the
labelled-image record of the missing header `labelling.h`.  `data` is the
flat `(w+2) × (h+2)` label buffer (modelled as a function from flat index to
stored value), `aliases` the GArray of label aliases, `clips` the GArray of
region statistics. -/
structure koki_labelled_image_t where
  w : Nat
  h : Nat
  data : Nat → Nat
  aliases : List Nat
  clips : List koki_clip_region_t

/-- Store `v` at flat index `i` of a buffer modelled as a function. -/
def setIdx (d : Nat → Nat) (i v : Nat) : Nat → Nat :=
  fun j => if j = i then v else d j

/-- The first perimeter-zeroing loop of `koki_labelled_image_new`
(`for (i=0; i<w+2; i++)`): zeroes the top and bottom rows. -/
def perimTopBottom (w h : Nat) (d : Nat → Nat) : Nat → Nat :=
  (List.range (w+2)).foldl
    (fun d i => setIdx (setIdx d i 0) ((h+1) * (w+2) + i) 0) d

/-- The second perimeter-zeroing loop of `koki_labelled_image_new`
(`for (i=1; i<h+1; i++)`): zeroes the left and right columns. -/
def perimLeftRight (w h : Nat) (d : Nat → Nat) : Nat → Nat :=
  (List.range' 1 h).foldl
    (fun d i => setIdx (setIdx d ((w+2) * i) 0) ((w+2) * i + w + 1) 0) d

/-- `koki_labelled_image_new`: allocates the labelled image, initialises the
alias and clip arrays to empty and zeroes the perimeter of the label buffer.
The freshly `malloc`ed buffer has indeterminate contents, modelled by the
extra parameter `junk`. -/
def koki_labelled_image_new (w h : Nat) (junk : Nat → Nat) :
    koki_labelled_image_t :=
  { w := w
    h := h
    data := perimLeftRight w h (perimTopBottom w h junk)
    aliases := []
    clips := [] }

/-- The `KOKI_IPLIMAGE_ELEM` macro: channel `rgb` (0, 1 or 2) of the pixel
at `(x, y)`. -/
def KOKI_IPLIMAGE_ELEM (img : IplImage) (x y rgb : Nat) : Nat :=
  if rgb = 0 then (img.pixel x y).1
  else if rgb = 1 then (img.pixel x y).2.1
  else (img.pixel x y).2.2

/-- The `KOKI_LABELLED_IMAGE_LABEL` macro: the stored label of logical
pixel `(x, y)`, i.e. physical cell `(x+1, y+1)` of the padded buffer. -/
def KOKI_LABELLED_IMAGE_LABEL (limg : koki_labelled_image_t) (x y : Nat) :
    Nat :=
  limg.data ((y+1) * (limg.w+2) + (x+1))

/-- `above_threshold`: whether `R + G + B` at `(x, y)` exceeds
`threshold_x_3`. -/
def above_threshold (image : IplImage) (x y threshold_x_3 : Nat) : Bool :=
  decide (KOKI_IPLIMAGE_ELEM image x y 0 + KOKI_IPLIMAGE_ELEM image x y 1
    + KOKI_IPLIMAGE_ELEM image x y 2 > threshold_x_3)

/-- `set_label`: writes label `0` directly, and otherwise writes the alias
table entry for `label` (the asserted bound `aliases->len > label-1` is
proved separately for every reachable call; out-of-range reads are modelled
by `List.getD` with default `0`). -/
def set_label (li : koki_labelled_image_t) (x y label : Nat) :
    koki_labelled_image_t :=
  if label = 0 then
    { li with data := setIdx li.data ((y+1) * (li.w+2) + (x+1)) 0 }
  else
    { li with data :=
        setIdx li.data ((y+1) * (li.w+2) + (x+1)) (li.aliases.getD (label - 1) 0) }

/-- The `DIRECTION` compass enumeration. -/
inductive DIRECTION | N | NE | E | SE | S | SW | W | NW
deriving DecidableEq

/-- `get_connected_label`: the stored label of the neighbour of `(x, y)` in
the given direction (physical-index arithmetic exactly as in the source). -/
def get_connected_label (li : koki_labelled_image_t) (x y : Nat) :
    DIRECTION → Nat
  | .N  => li.data ((y+1-1) * (li.w+2) + (x+1))
  | .NE => li.data ((y+1-1) * (li.w+2) + (x+1+1))
  | .E  => li.data ((y+1)   * (li.w+2) + (x+1+1))
  | .SE => li.data ((y+1+1) * (li.w+2) + (x+1+1))
  | .S  => li.data ((y+1+1) * (li.w+2) + (x+1))
  | .SW => li.data ((y+1+1) * (li.w+2) + (x+1-1))
  | .W  => li.data ((y+1)   * (li.w+2) + (x+1-1))
  | .NW => li.data ((y+1-1) * (li.w+2) + (x+1-1))

/-- `label_pixel`: classify pixel `(x, y)` and either write background,
inherit a neighbour's label, merge the North-East class with the
West/North-West class, or allocate a fresh label.  The C temporaries
`label_tmp`, `label_w`, `label_nw`, `l1`, `l2`, `label_min`, `label_max`
appear as `let`s. -/
def label_pixel (image : IplImage) (li : koki_labelled_image_t)
    (x y threshold_x_3 : Nat) : koki_labelled_image_t :=
  if above_threshold image x y threshold_x_3 then
    set_label li x y 0
  else
    let labelN := get_connected_label li x y .N
    if labelN > 0 then
      set_label li x y labelN
    else
      let labelNE := get_connected_label li x y .NE
      if labelNE > 0 then
        let label_w := get_connected_label li x y .W
        let label_nw := get_connected_label li x y .NW
        if label_w > 0 ∨ label_nw > 0 then
          let l1 := li.aliases.getD (labelNE - 1) 0
          let l2 := if label_nw > 0 then li.aliases.getD (label_nw - 1) 0
                    else li.aliases.getD (label_w - 1) 0
          let label_min := if l2 < l1 then l2 else l1
          let label_max := if l2 < l1 then l1 else l2
          let li2 := set_label li x y label_min
          { li2 with aliases :=
              li2.aliases.map fun a => if a = label_max then label_min else a }
        else
          set_label li x y labelNE
      else
        let labelNW := get_connected_label li x y .NW
        if labelNW > 0 then
          set_label li x y labelNW
        else
          let labelW := get_connected_label li x y .W
          if labelW > 0 then
            set_label li x y labelW
          else
            let label_tmp := (li.aliases.length + 1) % 65536
            set_label { li with aliases := li.aliases ++ [label_tmp] }
              x y label_tmp

/-- One step of the statistics-gathering loop of `koki_label_image`: update
the clip record of the (resolved) region of pixel `(x, y)`. -/
def statsPixel (li : koki_labelled_image_t) (cs : List koki_clip_region_t)
    (x y : Nat) : List koki_clip_region_t :=
  let label := KOKI_LABELLED_IMAGE_LABEL li x y
  if label = 0 then cs
  else
    let aliasv := li.aliases.getD (label - 1) 0
    let clip := cs.getD (aliasv - 1) { mass := 0, min := ⟨0, 0⟩, max := ⟨0, 0⟩ }
    let clip2 : koki_clip_region_t :=
      { mass := clip.mass + 1
        max := { x := if x > clip.max.x then x else clip.max.x
                 y := if y > clip.max.y then y else clip.max.y }
        min := { x := if x < clip.min.x then x else clip.min.x
                 y := if y < clip.min.y then y else clip.min.y } }
    cs.set (aliasv - 1) clip2

/-- The `max_alias` scan of `koki_label_image`: largest value currently in
the alias table. -/
def max_alias_of (aliases : List Nat) : Nat :=
  aliases.foldl (fun m a => if a > m then a else m) 0

/-- The clip-initialisation loop of `koki_label_image`: append `max_alias`
records with `mass 0`, `max (0,0)` and `min (0xFFFF, 0xFFFF)`. -/
def init_clips (max_alias : Nat) (cs : List koki_clip_region_t) :
    List koki_clip_region_t :=
  (List.range max_alias).foldl
    (fun cs _ => cs ++ [{ mass := 0, max := ⟨0, 0⟩, min := ⟨0xFFFF, 0xFFFF⟩ }])
    cs

/-- The body of `koki_label_image` after the threshold has been scaled:
construct the labelled image, label every pixel in raster order, then gather
per-region statistics. -/
def label_image_core (image : IplImage) (threshold_x_3 : Nat)
    (junk : Nat → Nat) : koki_labelled_image_t :=
  let li0 := koki_labelled_image_new image.width image.height junk
  let li :=
    (List.range image.height).foldl (fun li row =>
      (List.range image.width).foldl (fun li col =>
        label_pixel image li col row threshold_x_3) li) li0
  let max_alias := max_alias_of li.aliases
  let cs0 := init_clips max_alias li.clips
  let cs :=
    (List.range image.height).foldl (fun cs y =>
      (List.range image.width).foldl (fun cs x =>
        statsPixel li cs x y) cs) cs0
  { li with clips := cs }

/-- `koki_label_image`: scale the float threshold once
(`uint16_t threshold_x_3 = (255 * threshold) * 3`, a truncating
float-to-integer conversion, the float modelled as an exact rational) and
run the two passes. -/
def koki_label_image (image : IplImage) (threshold : ℚ) (junk : Nat → Nat) :
    koki_labelled_image_t :=
  label_image_core image (Int.toNat ⌊255 * threshold * 3⌋) junk

/-- The labelling pass truncated to the first `n` pixels in raster order
(pixel `k` is `(k % width, k / width)`); `runUpto (width*height)` is the
whole pass. -/
def runUpto (image : IplImage) (threshold_x_3 : Nat) (junk : Nat → Nat)
    (n : Nat) : koki_labelled_image_t :=
  (List.range n).foldl
    (fun li k =>
      label_pixel image li (k % image.width) (k / image.width) threshold_x_3)
    (koki_labelled_image_new image.width image.height junk)

/-- The statistics pass truncated to the first `n` pixels in raster order. -/
def statsUpto (image : IplImage) (li : koki_labelled_image_t)
    (cs : List koki_clip_region_t) (n : Nat) : List koki_clip_region_t :=
  (List.range n).foldl
    (fun cs k => statsPixel li cs (k % image.width) (k / image.width)) cs

/-! ### Concrete inputs used to exercise the development -/

/-- An all-zero initial label buffer (the malloc contents made explicit). -/
def junk0 : Nat → Nat := fun _ => 0

/-- 3×2 image whose black (foreground at any threshold) pixels are
`(0,0)`, `(2,0)` and `(1,1)`; every other pixel is white. -/
def imgA : IplImage :=
  { width := 3
    height := 2
    pixel := fun x y =>
      if (x = 0 ∧ y = 0) ∨ (x = 2 ∧ y = 0) ∨ (x = 1 ∧ y = 1) then (0, 0, 0)
      else (255, 255, 255) }

/-- 2×2 image whose black pixels are the antidiagonal `(1,0)`, `(0,1)`. -/
def imgB : IplImage :=
  { width := 2
    height := 2
    pixel := fun x y =>
      if (x = 1 ∧ y = 0) ∨ (x = 0 ∧ y = 1) then (0, 0, 0)
      else (255, 255, 255) }

/-- 3×2 image that is entirely black (all pixels foreground). -/
def imgC : IplImage := { width := 3, height := 2, pixel := fun _ _ => (0, 0, 0) }

/-- A hand-built labelled-image state that puts pixel `(1,1)` in the
North-East-merge branch with both West and North-West labelled: the North
neighbour `(1,0)` (cell 7) is unlabelled, North-East `(2,0)` (cell 8) holds
label 2, North-West `(0,0)` (cell 6) holds label 1 and West `(0,1)`
(cell 11) holds label 1. -/
def liC7 : koki_labelled_image_t :=
  { w := 3
    h := 2
    data := fun idx =>
      if idx = 8 then 2 else if idx = 6 then 1 else if idx = 11 then 1 else 0
    aliases := [1, 2]
    clips := [] }

/-! ### Spec-side notions: the flat index of a logical cell, the sentinel
ring, foreground pixels, raster order and 8-connectivity. -/

/-- Flat index of logical cell `(x, y)` in the padded `(w+2) × (h+2)`
buffer. -/
def cellIdx (w x y : Nat) : Nat := (y+1) * (w+2) + (x+1)

/-- Indices of the sentinel ring of the padded buffer: the cells of row 0,
row `h+1`, column 0 and column `w+1`. -/
def RingIdx (w h idx : Nat) : Prop :=
  idx < (w+2) * (h+2) ∧
    (idx < w+2 ∨ (h+1) * (w+2) ≤ idx ∨ idx % (w+2) = 0 ∨ idx % (w+2) = w+1)

instance (w h idx : Nat) : Decidable (RingIdx w h idx) := by
  unfold RingIdx; infer_instance

/-- The labelled cell of a pixel given as a pair. -/
def gridAt (li : koki_labelled_image_t) (p : Nat × Nat) : Nat :=
  KOKI_LABELLED_IMAGE_LABEL li p.1 p.2

/-- Resolution of a provisional label through the alias table
(`g_array_index(aliases, uint16_t, v - 1)`). -/
def resolve (li : koki_labelled_image_t) (v : Nat) : Nat :=
  li.aliases.getD (v - 1) 0

/-- The final class of a pixel: its stored label resolved once through the
alias table. -/
def cls (li : koki_labelled_image_t) (p : Nat × Nat) : Nat :=
  resolve li (gridAt li p)

/-- Foreground pixel of the image at a given scaled threshold: in bounds,
and channel sum not above the threshold. -/
def Fg (image : IplImage) (t3 : Nat) (p : Nat × Nat) : Prop :=
  p.1 < image.width ∧ p.2 < image.height ∧
    above_threshold image p.1 p.2 t3 = false

instance (image : IplImage) (t3 : Nat) (p : Nat × Nat) :
    Decidable (Fg image t3 p) := by
  unfold Fg; infer_instance

/-- The first `n` pixels in raster order (and in bounds horizontally). -/
def Processed (w n : Nat) (p : Nat × Nat) : Prop :=
  p.1 < w ∧ p.2 * w + p.1 < n

instance (w n : Nat) (p : Nat × Nat) : Decidable (Processed w n p) := by
  unfold Processed; infer_instance

/-- 8-adjacency of two distinct pixels: both coordinates differ by at most
one. -/
def adj8 (p q : Nat × Nat) : Prop :=
  p ≠ q ∧ p.1 ≤ q.1 + 1 ∧ q.1 ≤ p.1 + 1 ∧ p.2 ≤ q.2 + 1 ∧ q.2 ≤ p.2 + 1

instance (p q : Nat × Nat) : Decidable (adj8 p q) := by
  unfold adj8; infer_instance

/-- A single hop between 8-adjacent foreground pixels inside the region of
interest `S`. -/
def StepOn (F S : Nat × Nat → Prop) (p q : Nat × Nat) : Prop :=
  adj8 p q ∧ F p ∧ F q ∧ S p ∧ S q

/-- Connectivity through foreground pixels of `S`. -/
def ReachOn (F S : Nat × Nat → Prop) (p q : Nat × Nat) : Prop :=
  Relation.ReflTransGen (StepOn F S) p q

/-- 8-connectivity through foreground pixels of the whole image. -/
def Conn8 (image : IplImage) (t3 : Nat) (p q : Nat × Nat) : Prop :=
  ReachOn (Fg image t3) (fun _ => True) p q

/-! ### Flat-buffer update lemmas -/

theorem setIdx_self (d : Nat → Nat) (i v : Nat) : setIdx d i v i = v := by
  simp [setIdx]

theorem setIdx_ne (d : Nat → Nat) (i v j : Nat) (h : j ≠ i) :
    setIdx d i v j = d j := by
  simp [setIdx, h]

theorem foldl_set2_cases (f g : Nat → Nat) (l : List Nat) (d : Nat → Nat)
    (j : Nat) :
    (l.foldl (fun d i => setIdx (setIdx d (f i) 0) (g i) 0) d) j = 0 ∨
      (l.foldl (fun d i => setIdx (setIdx d (f i) 0) (g i) 0) d) j = d j := by
  induction l generalizing d with
  | nil => exact Or.inr rfl
  | cons a l ih =>
    rcases ih (setIdx (setIdx d (f a) 0) (g a) 0) with h | h
    · exact Or.inl h
    · rw [List.foldl_cons, h]
      unfold setIdx
      by_cases h1 : j = g a
      · simp [h1]
      · by_cases h2 : j = f a <;> simp [h1, h2]

theorem foldl_set2_zero (f g : Nat → Nat) (l : List Nat) (d : Nat → Nat)
    (j : Nat) (hit : ∃ i ∈ l, f i = j ∨ g i = j) :
    (l.foldl (fun d i => setIdx (setIdx d (f i) 0) (g i) 0) d) j = 0 := by
  induction l generalizing d with
  | nil => simp at hit
  | cons a l ih =>
    rw [List.foldl_cons]
    rcases hit with ⟨i, hi, hfg⟩
    rcases List.mem_cons.mp hi with rfl | hmem
    · rcases foldl_set2_cases f g l (setIdx (setIdx d (f i) 0) (g i) 0) j with
        h | h
      · exact h
      · rw [h]
        unfold setIdx
        rcases hfg with hf | hg
        · by_cases h1 : j = g i
          · simp [h1]
          · simp [h1, hf.symm]
        · simp [hg.symm]
    · exact ih _ ⟨i, hmem, hfg⟩

/-! ### The constructor zeroes exactly the sentinel ring -/

theorem ring_contains_top (w h idx : Nat) (hx : idx < w + 2) :
    RingIdx w h idx := by
  refine ⟨?_, Or.inl hx⟩
  have h1 : (w+2) * 1 ≤ (w+2) * (h+2) := Nat.mul_le_mul_left _ (by omega)
  omega

theorem ring_contains_left (w h y : Nat) (_hy1 : 1 ≤ y) (hy2 : y ≤ h) :
    RingIdx w h ((w+2) * y) := by
  refine ⟨?_, Or.inr (Or.inr (Or.inl (Nat.mul_mod_right _ _)))⟩
  have h1 : (w+2) * y ≤ (w+2) * h := Nat.mul_le_mul_left _ hy2
  have h2 : (w+2) * (h+2) = (w+2) * h + (w+2) * 2 := by ring
  omega

theorem ring_contains_right (w h y : Nat) (hy2 : y ≤ h + 1) :
    RingIdx w h ((w+2) * y + (w+1)) := by
  have hmod : ((w+2) * y + (w+1)) % (w+2) = w+1 := by
    rw [Nat.mul_add_mod]
    exact Nat.mod_eq_of_lt (by omega)
  refine ⟨?_, Or.inr (Or.inr (Or.inr hmod))⟩
  have h1 : (w+2) * y ≤ (w+2) * (h+1) := Nat.mul_le_mul_left _ hy2
  have h2 : (w+2) * (h+2) = (w+2) * (h+1) + (w+2) := by ring
  omega

theorem new_data_ring (w h : Nat) (junk : Nat → Nat) (idx : Nat)
    (hidx : RingIdx w h idx) :
    (koki_labelled_image_new w h junk).data idx = 0 := by
  have key :
      (∃ i ∈ List.range (w+2), i = idx ∨ (h+1) * (w+2) + i = idx) ∨
        (∃ i ∈ List.range' 1 h, (w+2) * i = idx ∨ (w+2) * i + w + 1 = idx) := by
    obtain ⟨hub, hc⟩ := hidx
    have hsplit : (w+2) * (h+2) = (h+1) * (w+2) + (w+2) := by ring
    rcases hc with htop | hbot | hmod | hmod
    · exact Or.inl ⟨idx, List.mem_range.mpr htop, Or.inl rfl⟩
    · refine Or.inl ⟨idx - (h+1) * (w+2), List.mem_range.mpr (by omega),
        Or.inr (by omega)⟩
    · obtain ⟨q, hqeq⟩ : ∃ q, idx / (w+2) = q := ⟨_, rfl⟩
      have hq := Nat.div_add_mod idx (w+2)
      have hqlt : idx / (w+2) < h + 2 := Nat.div_lt_of_lt_mul (by omega)
      rw [hqeq] at hq hqlt
      have hidxq : idx = (w+2) * q := by omega
      have hc : (h+1) * (w+2) = (w+2) * (h+1) := by ring
      have hq3 : q = 0 ∨ q = h + 1 ∨ (1 ≤ q ∧ q ≤ h) := by omega
      rcases hq3 with h0 | h0 | ⟨hq1, hq2⟩
      · rw [h0, Nat.mul_zero] at hidxq
        exact Or.inl ⟨idx, List.mem_range.mpr (by omega), Or.inl rfl⟩
      · rw [h0] at hidxq
        exact Or.inl ⟨0, List.mem_range.mpr (by omega), Or.inr (by omega)⟩
      · exact Or.inr ⟨q, List.mem_range'_1.mpr ⟨hq1, by omega⟩,
          Or.inl (by omega)⟩
    · obtain ⟨q, hqeq⟩ : ∃ q, idx / (w+2) = q := ⟨_, rfl⟩
      have hq := Nat.div_add_mod idx (w+2)
      have hqlt : idx / (w+2) < h + 2 := Nat.div_lt_of_lt_mul (by omega)
      rw [hqeq] at hq hqlt
      have hidxq : idx = (w+2) * q + (w+1) := by omega
      have hc : (h+1) * (w+2) = (w+2) * (h+1) := by ring
      have hq3 : q = 0 ∨ q = h + 1 ∨ (1 ≤ q ∧ q ≤ h) := by omega
      rcases hq3 with h0 | h0 | ⟨hq1, hq2⟩
      · rw [h0, Nat.mul_zero] at hidxq
        exact Or.inl ⟨idx, List.mem_range.mpr (by omega), Or.inl rfl⟩
      · rw [h0] at hidxq
        exact Or.inl ⟨w+1, List.mem_range.mpr (by omega), Or.inr (by omega)⟩
      · exact Or.inr ⟨q, List.mem_range'_1.mpr ⟨hq1, by omega⟩,
          Or.inr (by omega)⟩
  show perimLeftRight w h (perimTopBottom w h junk) idx = 0
  rcases key with htb | hlr
  · rcases foldl_set2_cases (fun i => (w+2) * i) (fun i => (w+2) * i + w + 1)
      (List.range' 1 h) (perimTopBottom w h junk) idx with h0 | hpass
    · exact h0
    · unfold perimLeftRight
      rw [hpass]
      exact foldl_set2_zero _ _ _ _ _ htb
  · exact foldl_set2_zero _ _ _ _ _ (by
      rcases hlr with ⟨i, hi, hcase⟩
      exact ⟨i, hi, by omega⟩)

/-! ### Cell indices: interior cells are not on the ring, and are
pairwise distinct -/

theorem cellIdx_mod (w x y : Nat) (hx : x < w + 1) :
    cellIdx w x y % (w+2) = x+1 := by
  unfold cellIdx
  rw [Nat.mul_add_mod']
  exact Nat.mod_eq_of_lt (by omega)

theorem cellIdx_lt (w h x y : Nat) (hx : x < w) (hy : y < h) :
    cellIdx w x y < (h+1) * (w+2) := by
  have h1 : (y+1) * (w+2) ≤ h * (w+2) := Nat.mul_le_mul_right _ (by omega)
  have h2 : (h+1) * (w+2) = h * (w+2) + (w+2) := by ring
  unfold cellIdx
  omega

theorem cellIdx_ge (w x y : Nat) : w + 2 ≤ cellIdx w x y := by
  have h1 : 1 * (w+2) ≤ (y+1) * (w+2) := Nat.mul_le_mul_right _ (by omega)
  unfold cellIdx
  omega

theorem cellIdx_not_ring (w h x y : Nat) (hx : x < w) (hy : y < h) :
    ¬ RingIdx w h (cellIdx w x y) := by
  rintro ⟨hub, hc⟩
  have hge := cellIdx_ge w x y
  have hlt := cellIdx_lt w h x y hx hy
  have hmod := cellIdx_mod w x y (by omega)
  rcases hc with h | h | h | h <;> omega

theorem cellIdx_inj (w x1 y1 x2 y2 : Nat) (h1 : x1 < w) (h2 : x2 < w)
    (heq : cellIdx w x1 y1 = cellIdx w x2 y2) : x1 = x2 ∧ y1 = y2 := by
  have hm1 := cellIdx_mod w x1 y1 (by omega)
  have hm2 := cellIdx_mod w x2 y2 (by omega)
  rw [heq] at hm1
  have hx : x1 = x2 := by omega
  subst hx
  have hy : (y1+1) * (w+2) = (y2+1) * (w+2) := by
    unfold cellIdx at heq; omega
  have := Nat.eq_of_mul_eq_mul_right (show 0 < w + 2 by omega) hy
  omega

/-! ### Structural facts about `set_label` and `label_pixel` -/

theorem set_label_w (li : koki_labelled_image_t) (x y v : Nat) :
    (set_label li x y v).w = li.w := by
  unfold set_label; split <;> rfl

theorem set_label_h (li : koki_labelled_image_t) (x y v : Nat) :
    (set_label li x y v).h = li.h := by
  unfold set_label; split <;> rfl

theorem set_label_aliases (li : koki_labelled_image_t) (x y v : Nat) :
    (set_label li x y v).aliases = li.aliases := by
  unfold set_label; split <;> rfl

theorem set_label_clips (li : koki_labelled_image_t) (x y v : Nat) :
    (set_label li x y v).clips = li.clips := by
  unfold set_label; split <;> rfl

theorem set_label_data (li : koki_labelled_image_t) (x y v : Nat) :
    (set_label li x y v).data =
      setIdx li.data (cellIdx li.w x y)
        (if v = 0 then 0 else li.aliases.getD (v - 1) 0) := by
  unfold set_label cellIdx
  by_cases h : v = 0 <;> simp [h]

theorem label_pixel_w (image : IplImage) (li : koki_labelled_image_t)
    (x y t3 : Nat) : (label_pixel image li x y t3).w = li.w := by
  simp only [label_pixel]
  repeat' split
  all_goals simp [set_label_w]

theorem label_pixel_h (image : IplImage) (li : koki_labelled_image_t)
    (x y t3 : Nat) : (label_pixel image li x y t3).h = li.h := by
  simp only [label_pixel]
  repeat' split
  all_goals simp [set_label_h]

theorem label_pixel_clips (image : IplImage) (li : koki_labelled_image_t)
    (x y t3 : Nat) : (label_pixel image li x y t3).clips = li.clips := by
  simp only [label_pixel]
  repeat' split
  all_goals simp [set_label_clips]

/-! ### Branch-shape lemmas for `label_pixel` -/

theorem label_pixel_bg_eq (image : IplImage) (li : koki_labelled_image_t)
    (x y t3 : Nat) (himg : above_threshold image x y t3 = true) :
    label_pixel image li x y t3 = set_label li x y 0 := by
  simp only [label_pixel]
  rw [if_pos himg]

theorem label_pixel_N_eq (image : IplImage) (li : koki_labelled_image_t)
    (x y t3 : Nat) (himg : above_threshold image x y t3 = false)
    (hN : get_connected_label li x y .N > 0) :
    label_pixel image li x y t3 =
      set_label li x y (get_connected_label li x y .N) := by
  simp only [label_pixel]
  rw [himg, if_neg Bool.false_ne_true, if_pos hN]

theorem label_pixel_merge_eq (image : IplImage) (li : koki_labelled_image_t)
    (x y t3 : Nat) (himg : above_threshold image x y t3 = false)
    (hN : get_connected_label li x y .N = 0)
    (hNE : get_connected_label li x y .NE > 0)
    (hor : get_connected_label li x y .W > 0 ∨
      get_connected_label li x y .NW > 0)
    (l1 l2 : Nat)
    (hl1 : l1 = li.aliases.getD (get_connected_label li x y .NE - 1) 0)
    (hl2 : l2 = if get_connected_label li x y .NW > 0 then
        li.aliases.getD (get_connected_label li x y .NW - 1) 0
      else li.aliases.getD (get_connected_label li x y .W - 1) 0) :
    (label_pixel image li x y t3).aliases =
        li.aliases.map
          (fun a => if a = Nat.max l1 l2 then Nat.min l1 l2 else a) ∧
      (label_pixel image li x y t3).data =
        (set_label li x y (Nat.min l1 l2)).data := by
  have hmin : (if l2 < l1 then l2 else l1) = Nat.min l1 l2 := by
    rcases Nat.lt_or_ge l2 l1 with h | h
    · rw [if_pos h]; exact (Nat.min_eq_right (Nat.le_of_lt h)).symm
    · rw [if_neg (Nat.not_lt.mpr h)]; exact (Nat.min_eq_left h).symm
  have hmax : (if l2 < l1 then l1 else l2) = Nat.max l1 l2 := by
    rcases Nat.lt_or_ge l2 l1 with h | h
    · rw [if_pos h]; exact (Nat.max_eq_left (Nat.le_of_lt h)).symm
    · rw [if_neg (Nat.not_lt.mpr h)]; exact (Nat.max_eq_right h).symm
  simp only [label_pixel]
  rw [himg, if_neg Bool.false_ne_true, hN, if_neg (Nat.lt_irrefl 0),
    if_pos hNE, if_pos hor, ← hl1, ← hl2, hmin, hmax]
  exact ⟨set_label_aliases li x y (Nat.min l1 l2) ▸ rfl, rfl⟩

theorem label_pixel_NE_eq (image : IplImage) (li : koki_labelled_image_t)
    (x y t3 : Nat) (himg : above_threshold image x y t3 = false)
    (hN : get_connected_label li x y .N = 0)
    (hNE : get_connected_label li x y .NE > 0)
    (hW : get_connected_label li x y .W = 0)
    (hNW : get_connected_label li x y .NW = 0) :
    label_pixel image li x y t3 =
      set_label li x y (get_connected_label li x y .NE) := by
  simp only [label_pixel]
  rw [himg, if_neg Bool.false_ne_true, hN, if_neg (Nat.lt_irrefl 0),
    if_pos hNE, hW, hNW,
    if_neg (by simp : ¬((0:Nat) > 0 ∨ (0:Nat) > 0))]

theorem label_pixel_NW_eq (image : IplImage) (li : koki_labelled_image_t)
    (x y t3 : Nat) (himg : above_threshold image x y t3 = false)
    (hN : get_connected_label li x y .N = 0)
    (hNE : get_connected_label li x y .NE = 0)
    (hNW : get_connected_label li x y .NW > 0) :
    label_pixel image li x y t3 =
      set_label li x y (get_connected_label li x y .NW) := by
  simp only [label_pixel]
  rw [himg, if_neg Bool.false_ne_true, hN, if_neg (Nat.lt_irrefl 0),
    hNE, if_neg (Nat.lt_irrefl 0), if_pos hNW]

theorem label_pixel_W_eq (image : IplImage) (li : koki_labelled_image_t)
    (x y t3 : Nat) (himg : above_threshold image x y t3 = false)
    (hN : get_connected_label li x y .N = 0)
    (hNE : get_connected_label li x y .NE = 0)
    (hNW : get_connected_label li x y .NW = 0)
    (hW : get_connected_label li x y .W > 0) :
    label_pixel image li x y t3 =
      set_label li x y (get_connected_label li x y .W) := by
  simp only [label_pixel]
  rw [himg, if_neg Bool.false_ne_true, hN, if_neg (Nat.lt_irrefl 0),
    hNE, if_neg (Nat.lt_irrefl 0), hNW, if_neg (Nat.lt_irrefl 0), if_pos hW]

theorem label_pixel_new_eq (image : IplImage) (li : koki_labelled_image_t)
    (x y t3 : Nat) (himg : above_threshold image x y t3 = false)
    (hN : get_connected_label li x y .N = 0)
    (hNE : get_connected_label li x y .NE = 0)
    (hNW : get_connected_label li x y .NW = 0)
    (hW : get_connected_label li x y .W = 0) :
    label_pixel image li x y t3 =
      set_label { li with aliases :=
          li.aliases ++ [(li.aliases.length + 1) % 65536] }
        x y ((li.aliases.length + 1) % 65536) := by
  simp only [label_pixel]
  rw [himg, if_neg Bool.false_ne_true, hN, if_neg (Nat.lt_irrefl 0),
    hNE, if_neg (Nat.lt_irrefl 0), hNW, if_neg (Nat.lt_irrefl 0),
    hW, if_neg (Nat.lt_irrefl 0)]

/-! ### Neighbour reads resolve to the sentinel ring or to an
already-written interior cell -/

/-- All sentinel-ring cells of a labelled image hold `0`. -/
def RingZero (li : koki_labelled_image_t) : Prop :=
  ∀ idx, RingIdx li.w li.h idx → li.data idx = 0

theorem read_N_eq (li : koki_labelled_image_t) (hRZ : RingZero li)
    (x y : Nat) (hx : x < li.w) (_hy : y < li.h) :
    get_connected_label li x y .N =
      if y = 0 then 0 else KOKI_LABELLED_IMAGE_LABEL li x (y - 1) := by
  cases y with
  | zero =>
    rw [if_pos rfl]
    show li.data (0 * (li.w+2) + (x+1)) = 0
    have hidx : 0 * (li.w+2) + (x+1) = x+1 := by omega
    rw [hidx]
    exact hRZ _ (ring_contains_top _ _ _ (by omega))
  | succ y' =>
    rw [if_neg (Nat.succ_ne_zero y')]
    rfl

theorem read_NE_eq (li : koki_labelled_image_t) (hRZ : RingZero li)
    (x y : Nat) (hx : x < li.w) (hy : y < li.h) :
    get_connected_label li x y .NE =
      if y = 0 ∨ x + 1 = li.w then 0
      else KOKI_LABELLED_IMAGE_LABEL li (x+1) (y - 1) := by
  cases y with
  | zero =>
    rw [if_pos (Or.inl rfl)]
    show li.data (0 * (li.w+2) + (x+2)) = 0
    have hidx : 0 * (li.w+2) + (x+2) = x+2 := by omega
    rw [hidx]
    exact hRZ _ (ring_contains_top _ _ _ (by omega))
  | succ y' =>
    by_cases hxe : x + 1 = li.w
    · rw [if_pos (Or.inr hxe)]
      show li.data ((y'+1) * (li.w+2) + (x+2)) = 0
      have hcm : (y'+1) * (li.w+2) = (li.w+2) * (y'+1) := Nat.mul_comm _ _
      have hidx : (y'+1) * (li.w+2) + (x+2) =
          (li.w+2) * (y'+1) + (li.w+1) := by omega
      rw [hidx]
      exact hRZ _ (ring_contains_right _ _ _ (by omega))
    · rw [if_neg (by
        rintro (hz | hz)
        · exact Nat.succ_ne_zero y' hz
        · exact hxe hz)]
      rfl

theorem read_W_eq (li : koki_labelled_image_t) (hRZ : RingZero li)
    (x y : Nat) (_hx : x < li.w) (hy : y < li.h) :
    get_connected_label li x y .W =
      if x = 0 then 0 else KOKI_LABELLED_IMAGE_LABEL li (x-1) y := by
  cases x with
  | zero =>
    rw [if_pos rfl]
    show li.data ((y+1) * (li.w+2) + 0) = 0
    have hcm : (y+1) * (li.w+2) = (li.w+2) * (y+1) := Nat.mul_comm _ _
    have hidx : (y+1) * (li.w+2) + 0 = (li.w+2) * (y+1) := by omega
    rw [hidx]
    exact hRZ _ (ring_contains_left _ _ _ (by omega) (by omega))
  | succ x' =>
    rw [if_neg (Nat.succ_ne_zero x')]
    rfl

theorem read_NW_eq (li : koki_labelled_image_t) (hRZ : RingZero li)
    (x y : Nat) (hx : x < li.w) (hy : y < li.h) :
    get_connected_label li x y .NW =
      if x = 0 ∨ y = 0 then 0
      else KOKI_LABELLED_IMAGE_LABEL li (x-1) (y-1) := by
  cases y with
  | zero =>
    rw [if_pos (Or.inr rfl)]
    show li.data (0 * (li.w+2) + (x+1-1)) = 0
    have hidx : 0 * (li.w+2) + (x+1-1) = x := by omega
    rw [hidx]
    exact hRZ _ (ring_contains_top _ _ _ (by omega))
  | succ y' =>
    cases x with
    | zero =>
      rw [if_pos (Or.inl rfl)]
      show li.data ((y'+1) * (li.w+2) + 0) = 0
      have hcm : (y'+1) * (li.w+2) = (li.w+2) * (y'+1) := Nat.mul_comm _ _
      have hidx : (y'+1) * (li.w+2) + 0 = (li.w+2) * (y'+1) := by omega
      rw [hidx]
      exact hRZ _ (ring_contains_left _ _ _ (by omega) (by omega))
    | succ x' =>
      rw [if_neg (by
        rintro (hz | hz)
        · exact Nat.succ_ne_zero x' hz
        · exact Nat.succ_ne_zero y' hz)]
      rfl

/-! ### Raster order -/

theorem processed_succ (w n : Nat) (hw : 0 < w) (p : Nat × Nat) :
    Processed w (n+1) p ↔ Processed w n p ∨ (p.1 < w ∧ p = (n % w, n / w)) := by
  unfold Processed
  constructor
  · rintro ⟨h1, h2⟩
    rcases Nat.lt_or_ge (p.2 * w + p.1) n with h | h
    · exact Or.inl ⟨h1, h⟩
    · have hn : p.2 * w + p.1 = n := by omega
      refine Or.inr ⟨h1, ?_⟩
      have hmod : n % w = p.1 := by
        rw [← hn, Nat.mul_add_mod']
        exact Nat.mod_eq_of_lt h1
      have hdiv : n / w = p.2 := by
        rw [← hn, Nat.mul_comm p.2 w, Nat.mul_add_div hw,
          Nat.div_eq_of_lt h1, Nat.add_zero]
      rw [hmod, hdiv]
  · rintro (⟨h1, h2⟩ | ⟨h1, h2⟩)
    · exact ⟨h1, by omega⟩
    · refine ⟨h1, ?_⟩
      have hdm := Nat.div_add_mod n w
      have hcm : (n / w) * w = w * (n / w) := Nat.mul_comm _ _
      have hp1 : p.1 = n % w := by rw [h2]
      have hp2 : p.2 = n / w := by rw [h2]
      rw [hp1, hp2]
      omega

theorem processed_mono (w n m : Nat) (hnm : n ≤ m) (p : Nat × Nat)
    (h : Processed w n p) : Processed w m p := by
  obtain ⟨h1, h2⟩ := h
  exact ⟨h1, by omega⟩

theorem not_processed_self (w n : Nat) (hw : 0 < w)
    (h : n % w < w) : ¬ Processed w n (n % w, n / w) := by
  rintro ⟨h1, h2⟩
  have hdm := Nat.div_add_mod n w
  have hcm : (n / w) * w = w * (n / w) := Nat.mul_comm _ _
  simp only at h2
  omega

theorem processed_y_lt (w h n : Nat) (p : Nat × Nat) (hn : n ≤ w * h)
    (hp : Processed w n p) : p.2 < h := by
  obtain ⟨h1, h2⟩ := hp
  by_contra hc
  push_neg at hc
  have hge : h * w ≤ p.2 * w := Nat.mul_le_mul_right w hc
  have hcm : w * h = h * w := Nat.mul_comm w h
  omega

/-! ### 8-adjacency and connectivity -/

theorem adj8_symm {p q : Nat × Nat} (h : adj8 p q) : adj8 q p := by
  obtain ⟨hne, h1, h2, h3, h4⟩ := h
  exact ⟨fun he => hne he.symm, h2, h1, h4, h3⟩

theorem stepOn_symm {F S : Nat × Nat → Prop} {p q : Nat × Nat}
    (h : StepOn F S p q) : StepOn F S q p := by
  obtain ⟨ha, hf1, hf2, hs1, hs2⟩ := h
  exact ⟨adj8_symm ha, hf2, hf1, hs2, hs1⟩

theorem reachOn_symm {F S : Nat × Nat → Prop} {p q : Nat × Nat}
    (h : ReachOn F S p q) : ReachOn F S q p :=
  Relation.ReflTransGen.symmetric (fun _ _ hs => stepOn_symm hs) h

theorem reachOn_mono {F S S2 : Nat × Nat → Prop} (hS : ∀ q, S q → S2 q)
    {p q : Nat × Nat} (h : ReachOn F S p q) : ReachOn F S2 p q :=
  Relation.ReflTransGen.mono
    (fun a b hab =>
      ⟨hab.1, hab.2.1, hab.2.2.1, hS a hab.2.2.2.1, hS b hab.2.2.2.2⟩) h

theorem reachOn_congr {F S S2 : Nat × Nat → Prop} (hS : ∀ q, S q ↔ S2 q)
    {p q : Nat × Nat} : ReachOn F S p q ↔ ReachOn F S2 p q :=
  ⟨reachOn_mono (fun q h => (hS q).mp h),
    reachOn_mono (fun q h => (hS q).mpr h)⟩

/-! ### Abstract lemmas describing how connectivity changes when one more
pixel `pstar` joins the processed region `S` -/

section PartitionStep

variable {F S : Nat × Nat → Prop} {pstar : Nat × Nat}

/-- If no step of the enlarged region can enter `pstar`, paths between old
pixels stay inside the old region. -/
theorem reach_confine
    (hnostep : ∀ z, StepOn F (fun u => S u ∨ u = pstar) z pstar → False)
    {q z : Nat × Nat} (hq : S q)
    (h : ReachOn F (fun u => S u ∨ u = pstar) q z) :
    S z ∧ ReachOn F S q z := by
  induction h with
  | refl => exact ⟨hq, Relation.ReflTransGen.refl⟩
  | tail _ hbc ih =>
    obtain ⟨hSb, hRb⟩ := ih
    obtain ⟨hadj, hFb, hFc, _, hSc'⟩ := hbc
    rcases hSc' with hSc | rfl
    · exact ⟨hSc, hRb.tail ⟨hadj, hFb, hFc, hSb, hSc⟩⟩
    · exact absurd ⟨hadj, hFb, hFc, Or.inl hSb, Or.inr rfl⟩ (hnostep _)

/-- When every processed neighbour of `pstar` is reachable from `r`, a path
in the enlarged region either ends at `pstar` (having reached `r`) or stays
equivalent to an old path. -/
theorem reach_attach {r : Nat × Nat} (hns : ¬ S pstar)
    (hnbr : ∀ z, S z → F z → adj8 z pstar → ReachOn F S r z)
    {q z : Nat × Nat} (hq : S q)
    (h : ReachOn F (fun u => S u ∨ u = pstar) q z) :
    (z = pstar ∧ ReachOn F S q r) ∨ (S z ∧ ReachOn F S q z) := by
  induction h with
  | refl => exact Or.inr ⟨hq, Relation.ReflTransGen.refl⟩
  | tail _ hbc ih =>
    obtain ⟨hadj, hFb, hFc, hSb', hSc'⟩ := hbc
    rcases ih with ⟨rfl, hqr⟩ | ⟨hSb, hRqb⟩
    · rcases hSc' with hSc | rfl
      · exact Or.inr ⟨hSc,
          hqr.trans (hnbr _ hSc hFc (adj8_symm hadj))⟩
      · exact absurd rfl hadj.1
    · rcases hSc' with hSc | rfl
      · exact Or.inr ⟨hSc, hRqb.tail ⟨hadj, hFb, hFc, hSb, hSc⟩⟩
      · exact Or.inl ⟨rfl, hRqb.trans (reachOn_symm (hnbr _ hSb hFb hadj))⟩

/-- Like `reach_attach`, for paths starting at `pstar`. -/
theorem reach_attach_from {r : Nat × Nat}
    (hnbr : ∀ z, S z → F z → adj8 z pstar → ReachOn F S r z)
    {z : Nat × Nat}
    (h : ReachOn F (fun u => S u ∨ u = pstar) pstar z) :
    z = pstar ∨ (S z ∧ ReachOn F S r z) := by
  induction h with
  | refl => exact Or.inl rfl
  | tail _ hbc ih =>
    obtain ⟨hadj, hFb, hFc, hSb', hSc'⟩ := hbc
    rcases ih with rfl | ⟨hSb, hRrb⟩
    · rcases hSc' with hSc | rfl
      · exact Or.inr ⟨hSc, hnbr _ hSc hFc (adj8_symm hadj)⟩
      · exact absurd rfl hadj.1
    · rcases hSc' with hSc | rfl
      · exact Or.inr ⟨hSc, hRrb.tail ⟨hadj, hFb, hFc, hSb, hSc⟩⟩
      · exact Or.inl rfl

/-- Two-anchor version of `reach_attach`, for the merging step: every
processed neighbour of `pstar` is reachable from `r1` or from `r2`. -/
theorem reach_attach2 {r1 r2 : Nat × Nat}
    (hnbr : ∀ z, S z → F z → adj8 z pstar →
      ReachOn F S r1 z ∨ ReachOn F S r2 z)
    {q z : Nat × Nat} (hq : S q)
    (h : ReachOn F (fun u => S u ∨ u = pstar) q z) :
    (z = pstar ∧ (ReachOn F S q r1 ∨ ReachOn F S q r2)) ∨
      (S z ∧ (ReachOn F S q z ∨
        ((ReachOn F S q r1 ∨ ReachOn F S q r2) ∧
          (ReachOn F S r1 z ∨ ReachOn F S r2 z)))) := by
  induction h with
  | refl => exact Or.inr ⟨hq, Or.inl Relation.ReflTransGen.refl⟩
  | tail _ hbc ih =>
    obtain ⟨hadj, hFb, hFc, hSb', hSc'⟩ := hbc
    rcases ih with ⟨rfl, hQ⟩ | ⟨hSb, hRb⟩
    · rcases hSc' with hSc | rfl
      · exact Or.inr ⟨hSc, Or.inr ⟨hQ, hnbr _ hSc hFc (adj8_symm hadj)⟩⟩
      · exact absurd rfl hadj.1
    · rcases hSc' with hSc | rfl
      · rcases hRb with hRqb | ⟨hQ, hRib⟩
        · exact Or.inr ⟨hSc, Or.inl (hRqb.tail ⟨hadj, hFb, hFc, hSb, hSc⟩)⟩
        · refine Or.inr ⟨hSc, Or.inr ⟨hQ, ?_⟩⟩
          rcases hRib with hR1 | hR2
          · exact Or.inl (hR1.tail ⟨hadj, hFb, hFc, hSb, hSc⟩)
          · exact Or.inr (hR2.tail ⟨hadj, hFb, hFc, hSb, hSc⟩)
      · rcases hRb with hRqb | ⟨hQ, _⟩
        · rcases hnbr _ hSb hFb hadj with hR1 | hR2
          · exact Or.inl ⟨rfl, Or.inl (hRqb.trans (reachOn_symm hR1))⟩
          · exact Or.inl ⟨rfl, Or.inr (hRqb.trans (reachOn_symm hR2))⟩
        · exact Or.inl ⟨rfl, hQ⟩

end PartitionStep

/-! ### Partition invariant: the three ways one pixel extends it -/

section PartitionStep2

variable {F S : Nat × Nat → Prop} {pstar : Nat × Nat}

/-- The no-merge foreground step: `pstar` takes the class of a neighbour
`r`, and every processed foreground neighbour of `pstar` was already
connected to `r`. -/
theorem partition_step_inherit (cls cls' : Nat × Nat → Nat) (r : Nat × Nat)
    (hpart : ∀ q q', S q → S q' → F q → F q' →
      (cls q = cls q' ↔ ReachOn F S q q'))
    (hns : ¬ S pstar) (hFp : F pstar)
    (hSr : S r) (hFr : F r) (hadjr : adj8 r pstar)
    (hnbr : ∀ z, S z → F z → adj8 z pstar → ReachOn F S r z)
    (hcls : ∀ q, S q → F q → cls' q = cls q)
    (hclsp : cls' pstar = cls r) :
    ∀ q q', (S q ∨ q = pstar) → (S q' ∨ q' = pstar) → F q → F q' →
      (cls' q = cls' q' ↔ ReachOn F (fun u => S u ∨ u = pstar) q q') := by
  have key : ∀ q, S q → F q →
      (cls' q = cls' pstar ↔ ReachOn F (fun u => S u ∨ u = pstar) q pstar) := by
    intro q hSq hFq
    rw [hclsp, hcls q hSq hFq]
    constructor
    · intro h
      have hR := (hpart q r hSq hSr hFq hFr).mp h
      exact (reachOn_mono (fun u => Or.inl) hR).tail
        ⟨hadjr, hFr, hFp, Or.inl hSr, Or.inr rfl⟩
    · intro h
      rcases reach_attach hns hnbr hSq h with ⟨_, hqr⟩ | ⟨hSp, _⟩
      · exact (hpart q r hSq hSr hFq hFr).mpr hqr
      · exact absurd hSp hns
  intro q q' hq hq' hFq hFq'
  rcases hq with hSq | rfl
  · rcases hq' with hSq' | rfl
    · rw [hcls q hSq hFq, hcls q' hSq' hFq']
      constructor
      · intro h
        exact reachOn_mono (fun u => Or.inl)
          ((hpart q q' hSq hSq' hFq hFq').mp h)
      · intro h
        rcases reach_attach hns hnbr hSq h with ⟨rfl, _⟩ | ⟨_, hR⟩
        · exact absurd hSq' hns
        · exact (hpart q q' hSq hSq' hFq hFq').mpr hR
    · exact key q hSq hFq
  · rcases hq' with hSq' | rfl
    · constructor
      · intro h
        exact reachOn_symm ((key q' hSq' hFq').mp h.symm)
      · intro h
        exact ((key q' hSq' hFq').mpr (reachOn_symm h)).symm
    · exact ⟨fun _ => Relation.ReflTransGen.refl, fun _ => rfl⟩

/-- The isolated foreground step: `pstar` has no processed foreground
neighbour and receives a class no old pixel has. -/
theorem partition_step_new (cls cls' : Nat × Nat → Nat) (cNew : Nat)
    (hpart : ∀ q q', S q → S q' → F q → F q' →
      (cls q = cls q' ↔ ReachOn F S q q'))
    (hns : ¬ S pstar)
    (hnbr : ∀ z, S z → F z → ¬ adj8 z pstar)
    (hfresh : ∀ q, S q → F q → cls q ≠ cNew)
    (hcls : ∀ q, S q → F q → cls' q = cls q)
    (hclsp : cls' pstar = cNew) :
    ∀ q q', (S q ∨ q = pstar) → (S q' ∨ q' = pstar) → F q → F q' →
      (cls' q = cls' q' ↔ ReachOn F (fun u => S u ∨ u = pstar) q q') := by
  have hnostep : ∀ z, StepOn F (fun u => S u ∨ u = pstar) z pstar → False := by
    rintro z ⟨hadj, hFz, _, hSz', _⟩
    rcases hSz' with hSz | rfl
    · exact hnbr z hSz hFz hadj
    · exact hadj.1 rfl
  have key : ∀ q, S q → F q →
      (cls' q = cls' pstar ↔ ReachOn F (fun u => S u ∨ u = pstar) q pstar) := by
    intro q hSq hFq
    rw [hclsp, hcls q hSq hFq]
    constructor
    · intro h
      exact absurd h (hfresh q hSq hFq)
    · intro h
      exact absurd (reach_confine hnostep hSq h).1 hns
  intro q q' hq hq' hFq hFq'
  rcases hq with hSq | rfl
  · rcases hq' with hSq' | rfl
    · rw [hcls q hSq hFq, hcls q' hSq' hFq']
      constructor
      · intro h
        exact reachOn_mono (fun u => Or.inl)
          ((hpart q q' hSq hSq' hFq hFq').mp h)
      · intro h
        exact (hpart q q' hSq hSq' hFq hFq').mpr
          (reach_confine hnostep hSq h).2
    · exact key q hSq hFq
  · rcases hq' with hSq' | rfl
    · constructor
      · intro h
        exact reachOn_symm ((key q' hSq' hFq').mp h.symm)
      · intro h
        exact ((key q' hSq' hFq').mpr (reachOn_symm h)).symm
    · exact ⟨fun _ => Relation.ReflTransGen.refl, fun _ => rfl⟩

/-- The background step: `pstar` is not foreground, so connectivity among
foreground pixels does not change. -/
theorem partition_step_bg (cls cls' : Nat × Nat → Nat)
    (hpart : ∀ q q', S q → S q' → F q → F q' →
      (cls q = cls q' ↔ ReachOn F S q q'))
    (hnF : ¬ F pstar)
    (hcls : ∀ q, S q → F q → cls' q = cls q) :
    ∀ q q', (S q ∨ q = pstar) → (S q' ∨ q' = pstar) → F q → F q' →
      (cls' q = cls' q' ↔ ReachOn F (fun u => S u ∨ u = pstar) q q') := by
  have hnostep : ∀ z, StepOn F (fun u => S u ∨ u = pstar) z pstar → False := by
    rintro z ⟨_, _, hFp, _, _⟩
    exact hnF hFp
  intro q q' hq hq' hFq hFq'
  rcases hq with hSq | rfl
  · rcases hq' with hSq' | rfl
    · rw [hcls q hSq hFq, hcls q' hSq' hFq']
      constructor
      · intro h
        exact reachOn_mono (fun u => Or.inl)
          ((hpart q q' hSq hSq' hFq hFq').mp h)
      · intro h
        exact (hpart q q' hSq hSq' hFq hFq').mpr
          (reach_confine hnostep hSq h).2
    · exact absurd hFq' hnF
  · exact absurd hFq hnF

end PartitionStep2

section PartitionStep3

variable {F S : Nat × Nat → Prop} {pstar : Nat × Nat}

/-- The merging foreground step: `pstar` touches two anchors `r1` and `r2`,
their classes `cls r1` and `cls r2` are collapsed (`hi` rewritten to `lo`
with `{lo, hi} = {cls r1, cls r2}`), `pstar` gets `lo`, and every processed
foreground neighbour of `pstar` was already connected to `r1` or `r2`. -/
theorem partition_step_merge (cls cls' : Nat × Nat → Nat)
    (r1 r2 : Nat × Nat) (lo hi : Nat)
    (hpart : ∀ q q', S q → S q' → F q → F q' →
      (cls q = cls q' ↔ ReachOn F S q q'))
    (hns : ¬ S pstar) (hFp : F pstar)
    (hS1 : S r1) (hF1 : F r1) (hadj1 : adj8 r1 pstar)
    (hS2 : S r2) (hF2 : F r2) (hadj2 : adj8 r2 pstar)
    (hnbr : ∀ z, S z → F z → adj8 z pstar →
      ReachOn F S r1 z ∨ ReachOn F S r2 z)
    (hset : (lo = cls r1 ∧ hi = cls r2) ∨ (lo = cls r2 ∧ hi = cls r1))
    (hcls : ∀ q, S q → F q → cls' q = if cls q = hi then lo else cls q)
    (hclsp : cls' pstar = lo) :
    ∀ q q', (S q ∨ q = pstar) → (S q' ∨ q' = pstar) → F q → F q' →
      (cls' q = cls' q' ↔ ReachOn F (fun u => S u ∨ u = pstar) q q') := by
  have hcoll : ∀ a b : Nat,
      ((if a = hi then lo else a) = (if b = hi then lo else b)) ↔
        (a = b ∨ (a = cls r1 ∧ b = cls r2) ∨ (a = cls r2 ∧ b = cls r1)) := by
    intro a b
    rcases hset with ⟨hl, hh⟩ | ⟨hl, hh⟩ <;> split_ifs with ha hb <;> omega
  have hlo : ∀ a : Nat,
      ((if a = hi then lo else a) = lo) ↔ (a = cls r1 ∨ a = cls r2) := by
    intro a
    rcases hset with ⟨hl, hh⟩ | ⟨hl, hh⟩ <;> split_ifs with ha <;> omega
  -- a step from an anchor into pstar, inside the enlarged region
  have hstep1 : StepOn F (fun u => S u ∨ u = pstar) r1 pstar :=
    ⟨hadj1, hF1, hFp, Or.inl hS1, Or.inr rfl⟩
  have hstep2 : StepOn F (fun u => S u ∨ u = pstar) r2 pstar :=
    ⟨hadj2, hF2, hFp, Or.inl hS2, Or.inr rfl⟩
  have key : ∀ q, S q → F q →
      (cls' q = cls' pstar ↔ ReachOn F (fun u => S u ∨ u = pstar) q pstar) := by
    intro q hSq hFq
    rw [hclsp, hcls q hSq hFq, hlo (cls q)]
    constructor
    · intro h
      rcases h with h | h
      · exact ((reachOn_mono (fun u => Or.inl)
          ((hpart q r1 hSq hS1 hFq hF1).mp h)).tail hstep1)
      · exact ((reachOn_mono (fun u => Or.inl)
          ((hpart q r2 hSq hS2 hFq hF2).mp h)).tail hstep2)
    · intro h
      rcases reach_attach2 hnbr hSq h with ⟨_, hQ⟩ | ⟨hSp, _⟩
      · rcases hQ with hQ1 | hQ2
        · exact Or.inl ((hpart q r1 hSq hS1 hFq hF1).mpr hQ1)
        · exact Or.inr ((hpart q r2 hSq hS2 hFq hF2).mpr hQ2)
      · exact absurd hSp hns
  intro q q' hq hq' hFq hFq'
  rcases hq with hSq | rfl
  · rcases hq' with hSq' | rfl
    · rw [hcls q hSq hFq, hcls q' hSq' hFq', hcoll (cls q) (cls q')]
      constructor
      · rintro (h | ⟨h1, h2⟩ | ⟨h1, h2⟩)
        · exact reachOn_mono (fun u => Or.inl)
            ((hpart q q' hSq hSq' hFq hFq').mp h)
        · have hq1 : ReachOn F S q r1 :=
            (hpart q r1 hSq hS1 hFq hF1).mp h1
          have hq2 : ReachOn F S q' r2 :=
            (hpart q' r2 hSq' hS2 hFq' hF2).mp h2
          exact (((reachOn_mono (fun u => Or.inl) hq1).tail hstep1).trans
            ((Relation.ReflTransGen.single (stepOn_symm hstep2)).trans
              (reachOn_mono (fun u => Or.inl) (reachOn_symm hq2))))
        · have hq1 : ReachOn F S q r2 :=
            (hpart q r2 hSq hS2 hFq hF2).mp h1
          have hq2 : ReachOn F S q' r1 :=
            (hpart q' r1 hSq' hS1 hFq' hF1).mp h2
          exact (((reachOn_mono (fun u => Or.inl) hq1).tail hstep2).trans
            ((Relation.ReflTransGen.single (stepOn_symm hstep1)).trans
              (reachOn_mono (fun u => Or.inl) (reachOn_symm hq2))))
      · intro h
        rcases reach_attach2 hnbr hSq h with ⟨rfl, _⟩ | ⟨_, hR⟩
        · exact absurd hSq' hns
        · rcases hR with hR | ⟨hQ, hR'⟩
          · exact Or.inl ((hpart q q' hSq hSq' hFq hFq').mpr hR)
          · rcases hQ with hQ1 | hQ2 <;> rcases hR' with hR1 | hR2
            · exact Or.inl ((hpart q q' hSq hSq' hFq hFq').mpr
                (hQ1.trans hR1))
            · exact Or.inr (Or.inl
                ⟨(hpart q r1 hSq hS1 hFq hF1).mpr hQ1,
                  (hpart q' r2 hSq' hS2 hFq' hF2).mpr (reachOn_symm hR2)⟩)
            · exact Or.inr (Or.inr
                ⟨(hpart q r2 hSq hS2 hFq hF2).mpr hQ2,
                  (hpart q' r1 hSq' hS1 hFq' hF1).mpr (reachOn_symm hR1)⟩)
            · exact Or.inl ((hpart q q' hSq hSq' hFq hFq').mpr
                (hQ2.trans hR2))
    · exact key q hSq hFq
  · rcases hq' with hSq' | rfl
    · constructor
      · intro h
        exact reachOn_symm ((key q' hSq' hFq').mp h.symm)
      · intro h
        exact ((key q' hSq' hFq').mpr (reachOn_symm h)).symm
    · exact ⟨fun _ => Relation.ReflTransGen.refl, fun _ => rfl⟩

end PartitionStep3

/-! ### Geometry of the raster scan around the current pixel -/

theorem adj8_mk (a b c d : Nat) (hne : ¬(a = c ∧ b = d)) (h1 : a ≤ c+1)
    (h2 : c ≤ a+1) (h3 : b ≤ d+1) (h4 : d ≤ b+1) : adj8 (a, b) (c, d) :=
  ⟨fun he => hne ⟨congrArg Prod.fst he, congrArg Prod.snd he⟩, h1, h2, h3, h4⟩

/-- The processed 8-neighbours of the pixel currently being labelled are
exactly its North, North-East, North-West and West neighbours (when those
exist). -/
theorem adj_processed_cases (w n x y : Nat) (hx : x < w) (hn : n = y * w + x)
    (q : Nat × Nat) (hq : Processed w n q) (hadj : adj8 q (x, y)) :
    (1 ≤ y ∧ q = (x, y-1)) ∨ (1 ≤ y ∧ x+1 < w ∧ q = (x+1, y-1)) ∨
      (1 ≤ x ∧ 1 ≤ y ∧ q = (x-1, y-1)) ∨ (1 ≤ x ∧ q = (x-1, y)) := by
  obtain ⟨hq1, hq2⟩ := hq
  obtain ⟨hne, ha1, ha2, ha3, ha4⟩ := hadj
  simp only [Prod.fst, Prod.snd] at ha1 ha2 ha3 ha4
  have hne2 : ¬ (q.1 = x ∧ q.2 = y) := by
    rintro ⟨e1, e2⟩
    exact hne (Prod.ext e1 e2)
  simp only [Prod.ext_iff]
  have hb : q.2 + 1 = y ∨ q.2 = y ∨ q.2 = y + 1 := by omega
  rcases hb with hb | hb | hb
  · have hyw : y * w = q.2 * w + w := by rw [← hb]; ring
    have ha : q.1 + 1 = x ∨ q.1 = x ∨ q.1 = x + 1 := by omega
    rcases ha with ha | ha | ha
    · exact Or.inr (Or.inr (Or.inl ⟨by omega, by omega, by omega, by omega⟩))
    · exact Or.inl ⟨by omega, by omega, by omega⟩
    · exact Or.inr (Or.inl ⟨by omega, by omega, by omega, by omega⟩)
  · have hyw : y * w = q.2 * w := by rw [hb]
    have ha : q.1 + 1 = x := by omega
    exact Or.inr (Or.inr (Or.inr ⟨by omega, by omega, by omega⟩))
  · have hyw : q.2 * w = y * w + w := by rw [hb]; ring
    omega

theorem processed_N (w n x y : Nat) (hx : x < w) (hn : n = y * w + x)
    (hy1 : 1 ≤ y) : Processed w n (x, y-1) := by
  refine ⟨hx, ?_⟩
  have h1 : (y - 1 + 1) = y := by omega
  have h2 : (y - 1 + 1) * w = (y - 1) * w + w := by ring
  rw [h1] at h2
  simp only [Prod.fst, Prod.snd]
  omega

theorem processed_NE (w n x y : Nat) (hx : x < w) (hn : n = y * w + x)
    (hy1 : 1 ≤ y) (hx1 : x + 1 < w) : Processed w n (x+1, y-1) := by
  refine ⟨hx1, ?_⟩
  have h1 : (y - 1 + 1) = y := by omega
  have h2 : (y - 1 + 1) * w = (y - 1) * w + w := by ring
  rw [h1] at h2
  simp only [Prod.fst, Prod.snd]
  omega

theorem processed_NW (w n x y : Nat) (hx : x < w) (hn : n = y * w + x)
    (hy1 : 1 ≤ y) (hx1 : 1 ≤ x) : Processed w n (x-1, y-1) := by
  refine ⟨by omega, ?_⟩
  have h1 : (y - 1 + 1) = y := by omega
  have h2 : (y - 1 + 1) * w = (y - 1) * w + w := by ring
  rw [h1] at h2
  simp only [Prod.fst, Prod.snd]
  omega

theorem processed_W (w n x y : Nat) (hx : x < w) (hn : n = y * w + x)
    (hx1 : 1 ≤ x) : Processed w n (x-1, y) := by
  refine ⟨by omega, ?_⟩
  simp only [Prod.fst, Prod.snd]
  omega

/-! ### Grid updates seen through the accessors -/

theorem gridAt_pair (li : koki_labelled_image_t) (x y : Nat) :
    gridAt li (x, y) = li.data (cellIdx li.w x y) := rfl

theorem gridAt_set_label_self (li : koki_labelled_image_t) (x y v : Nat) :
    gridAt (set_label li x y v) (x, y) =
      if v = 0 then 0 else li.aliases.getD (v - 1) 0 := by
  show (set_label li x y v).data
      ((y+1) * ((set_label li x y v).w + 2) + (x+1)) = _
  rw [set_label_w, set_label_data]
  exact setIdx_self _ _ _

theorem gridAt_set_label_ne (li : koki_labelled_image_t) (x y v : Nat)
    (p : Nat × Nat) (hx : x < li.w) (hp1 : p.1 < li.w) (hne : p ≠ (x, y)) :
    gridAt (set_label li x y v) p = gridAt li p := by
  show (set_label li x y v).data
      ((p.2+1) * ((set_label li x y v).w + 2) + (p.1+1)) = _
  rw [set_label_w, set_label_data]
  refine setIdx_ne _ _ _ _ ?_
  intro he
  have := cellIdx_inj li.w p.1 p.2 x y hp1 hx he
  exact hne (Prod.ext this.1 this.2)

theorem ringZero_set_label (li : koki_labelled_image_t) (x y v : Nat)
    (hx : x < li.w) (hy : y < li.h) (hRZ : RingZero li) :
    RingZero (set_label li x y v) := by
  intro idx hidx
  rw [set_label_w, set_label_h] at hidx
  rw [set_label_data]
  rw [setIdx_ne]
  · exact hRZ idx hidx
  · intro he
    rw [he] at hidx
    exact cellIdx_not_ring li.w li.h x y hx hy hidx

/-! ### Alias-table reads after the two kinds of update -/

theorem getD_map_collapse (al : List Nat) (lo hi i : Nat)
    (hv : i < al.length) :
    (al.map fun a => if a = hi then lo else a).getD i 0 =
      (if al.getD i 0 = hi then lo else al.getD i 0) := by
  rw [List.getD_eq_getElem?_getD, List.getD_eq_getElem?_getD,
    List.getElem?_map, List.getElem?_eq_getElem hv]
  rfl

theorem getD_append_left (al : List Nat) (t i : Nat) (hi : i < al.length) :
    (al ++ [t]).getD i 0 = al.getD i 0 := by
  rw [List.getD_eq_getElem?_getD, List.getD_eq_getElem?_getD,
    List.getElem?_append, if_pos hi]

theorem getD_append_self (al : List Nat) (t : Nat) :
    (al ++ [t]).getD al.length 0 = t := by
  rw [List.getD_eq_getElem?_getD]
  rw [List.getElem?_append_right (Nat.le_refl _)]
  simp

/-! ### The labelling-loop invariant -/

/-- Everything that holds of the labelled image after the first `n` pixels
have been processed in raster order. -/
structure LoopInv (image : IplImage) (t3 n : Nat)
    (li : koki_labelled_image_t) : Prop where
  hw : li.w = image.width
  hh : li.h = image.height
  hn : n ≤ image.width * image.height
  ring : RingZero li
  len_le : li.aliases.length ≤ n
  alias_pos : ∀ i, i < li.aliases.length → 1 ≤ li.aliases.getD i 0
  alias_le : ∀ i, i < li.aliases.length → li.aliases.getD i 0 ≤ i + 1
  flat : ∀ i, i < li.aliases.length →
    li.aliases.getD (li.aliases.getD i 0 - 1) 0 = li.aliases.getD i 0
  bg0 : ∀ p, Processed image.width n p → ¬ Fg image t3 p → gridAt li p = 0
  fg_pos : ∀ p, Processed image.width n p → Fg image t3 p →
    1 ≤ gridAt li p ∧ gridAt li p ≤ li.aliases.length
  part : ∀ p q, Processed image.width n p → Processed image.width n q →
    Fg image t3 p → Fg image t3 q →
    (cls li p = cls li q ↔
      ReachOn (Fg image t3) (Processed image.width n) p q)

theorem LoopInv.fg_of_pos {image : IplImage} {t3 n : Nat}
    {li : koki_labelled_image_t} (H : LoopInv image t3 n li) (p : Nat × Nat)
    (hp : Processed image.width n p) (hpos : gridAt li p ≠ 0) :
    Fg image t3 p := by
  by_contra hc
  exact hpos (H.bg0 p hp hc)

theorem LoopInv.resolve_ge {image : IplImage} {t3 n : Nat}
    {li : koki_labelled_image_t} (H : LoopInv image t3 n li) (v : Nat)
    (h1 : 1 ≤ v) (h2 : v ≤ li.aliases.length) : 1 ≤ resolve li v :=
  H.alias_pos (v - 1) (by omega)

theorem LoopInv.resolve_le {image : IplImage} {t3 n : Nat}
    {li : koki_labelled_image_t} (H : LoopInv image t3 n li) (v : Nat)
    (h1 : 1 ≤ v) (h2 : v ≤ li.aliases.length) : resolve li v ≤ v := by
  have := H.alias_le (v - 1) (by omega)
  unfold resolve
  omega

theorem LoopInv.resolve_flat {image : IplImage} {t3 n : Nat}
    {li : koki_labelled_image_t} (H : LoopInv image t3 n li) (v : Nat)
    (h1 : 1 ≤ v) (h2 : v ≤ li.aliases.length) :
    resolve li (resolve li v) = resolve li v :=
  H.flat (v - 1) (by omega)

/-- The invariant holds initially: nothing processed, empty alias table,
zeroed ring. -/
theorem loopInv_zero (image : IplImage) (t3 : Nat) (junk : Nat → Nat) :
    LoopInv image t3 0
      (koki_labelled_image_new image.width image.height junk) := by
  refine ⟨rfl, rfl, Nat.zero_le _, ?_, Nat.le_refl _, ?_, ?_, ?_, ?_, ?_, ?_⟩
  · intro idx hidx
    exact new_data_ring _ _ _ _ hidx
  · intro i hi
    simp [koki_labelled_image_new] at hi
  · intro i hi
    simp [koki_labelled_image_new] at hi
  · intro i hi
    simp [koki_labelled_image_new] at hi
  · rintro p ⟨_, h2⟩ _
    omega
  · rintro p ⟨_, h2⟩ _
    omega
  · rintro p q ⟨_, h2⟩ _ _ _
    omega

/-! ### The invariant is preserved by one `label_pixel` step -/

theorem step_basics (image : IplImage) (n : Nat)
    (hn : n < image.width * image.height) :
    0 < image.width ∧ n % image.width < image.width ∧
      n / image.width < image.height ∧
      n = (n / image.width) * image.width + n % image.width := by
  have hw0 : 0 < image.width := by
    rcases Nat.eq_zero_or_pos image.width with h0 | h0
    · rw [h0] at hn; simp at hn
    · exact h0
  refine ⟨hw0, Nat.mod_lt _ hw0, ?_, ?_⟩
  · rw [Nat.div_lt_iff_lt_mul hw0, Nat.mul_comm]
    exact hn
  · have hdm := Nat.div_add_mod n image.width
    have hcm : (n / image.width) * image.width =
        image.width * (n / image.width) := Nat.mul_comm _ _
    omega

theorem cls_set_label_ne (li : koki_labelled_image_t) (x y v : Nat)
    (p : Nat × Nat) (hx : x < li.w) (hp1 : p.1 < li.w) (hne : p ≠ (x, y)) :
    cls (set_label li x y v) p = cls li p := by
  unfold cls resolve
  rw [set_label_aliases, gridAt_set_label_ne li x y v p hx hp1 hne]

theorem cls_set_label_self_pos (li : koki_labelled_image_t) (x y v : Nat)
    (hv : v ≠ 0) :
    cls (set_label li x y v) (x, y) = resolve li (resolve li v) := by
  unfold cls resolve
  rw [set_label_aliases, gridAt_set_label_self, if_neg hv]

theorem loopInv_step_bg (image : IplImage) (t3 n : Nat)
    (li : koki_labelled_image_t) (hn : n < image.width * image.height)
    (H : LoopInv image t3 n li)
    (himg : above_threshold image (n % image.width) (n / image.width) t3 =
      true) :
    LoopInv image t3 (n+1)
      (label_pixel image li (n % image.width) (n / image.width) t3) := by
  obtain ⟨hw0, hx, hy, hnxy⟩ := step_basics image n hn
  have hnp : ¬ Processed image.width n (n % image.width, n / image.width) :=
    not_processed_self image.width n hw0 hx
  have pne : ∀ p, Processed image.width n p →
      p ≠ (n % image.width, n / image.width) :=
    fun p hp he => hnp (he ▸ hp)
  have hsucc : ∀ p, Processed image.width (n+1) p ↔
      (Processed image.width n p ∨ p = (n % image.width, n / image.width)) := by
    intro p
    rw [processed_succ image.width n hw0 p]
    constructor
    · rintro (h | ⟨_, h⟩)
      · exact Or.inl h
      · exact Or.inr h
    · rintro (h | rfl)
      · exact Or.inl h
      · exact Or.inr ⟨hx, rfl⟩
  have hnF : ¬ Fg image t3 (n % image.width, n / image.width) := by
    rintro ⟨_, _, hf⟩
    rw [himg] at hf
    cases hf
  rw [label_pixel_bg_eq image li _ _ _ himg]
  have hlw : n % image.width < li.w := by rw [H.hw]; exact hx
  have hlh : n / image.width < li.h := by rw [H.hh]; exact hy
  refine ⟨?_, ?_, ?_, ?_, ?_, ?_, ?_, ?_, ?_, ?_, ?_⟩
  · rw [set_label_w]; exact H.hw
  · rw [set_label_h]; exact H.hh
  · omega
  · exact ringZero_set_label li _ _ 0 hlw hlh H.ring
  · rw [set_label_aliases]
    have := H.len_le
    omega
  · intro i hi
    rw [set_label_aliases] at hi ⊢
    exact H.alias_pos i hi
  · intro i hi
    rw [set_label_aliases] at hi ⊢
    exact H.alias_le i hi
  · intro i hi
    rw [set_label_aliases] at hi ⊢
    exact H.flat i hi
  · intro p hp hF
    rcases (hsucc p).mp hp with hold | rfl
    · rw [gridAt_set_label_ne li _ _ 0 p hlw (by rw [H.hw]; exact hold.1)
        (pne p hold)]
      exact H.bg0 p hold hF
    · rw [gridAt_set_label_self]
      simp
  · intro p hp hFp
    rcases (hsucc p).mp hp with hold | rfl
    · rw [gridAt_set_label_ne li _ _ 0 p hlw (by rw [H.hw]; exact hold.1)
        (pne p hold), set_label_aliases]
      exact H.fg_pos p hold hFp
    · exact absurd hFp hnF
  · have hcls : ∀ q, Processed image.width n q → Fg image t3 q →
        cls (set_label li (n % image.width) (n / image.width) 0) q =
          cls li q := by
      intro q hq hFq
      exact cls_set_label_ne li _ _ 0 q hlw (by rw [H.hw]; exact hq.1)
        (pne q hq)
    have hstep := partition_step_bg (cls li)
      (cls (set_label li (n % image.width) (n / image.width) 0))
      H.part hnF hcls
    intro p q hp hq hFp hFq
    exact (hstep p q ((hsucc p).mp hp) ((hsucc q).mp hq) hFp hFq).trans
      (reachOn_congr fun u => ((hsucc u).symm))

/-- Common case: the current foreground pixel inherits the (resolved) label
`v` read from the already-processed neighbour `r`, and every processed
foreground neighbour of the current pixel was already connected to `r`. -/
theorem loopInv_step_take (image : IplImage) (t3 n : Nat)
    (li : koki_labelled_image_t) (hn : n < image.width * image.height)
    (H : LoopInv image t3 n li)
    (himg : above_threshold image (n % image.width) (n / image.width) t3 =
      false)
    (v : Nat) (hv : v ≠ 0) (r : Nat × Nat)
    (hSr : Processed image.width n r) (hFr : Fg image t3 r)
    (hadjr : adj8 r (n % image.width, n / image.width))
    (hgr : gridAt li r = v)
    (hnbr : ∀ z, Processed image.width n z → Fg image t3 z →
      adj8 z (n % image.width, n / image.width) →
      ReachOn (Fg image t3) (Processed image.width n) r z)
    (heq : label_pixel image li (n % image.width) (n / image.width) t3 =
      set_label li (n % image.width) (n / image.width) v) :
    LoopInv image t3 (n+1)
      (label_pixel image li (n % image.width) (n / image.width) t3) := by
  obtain ⟨hw0, hx, hy, hnxy⟩ := step_basics image n hn
  have hnp : ¬ Processed image.width n (n % image.width, n / image.width) :=
    not_processed_self image.width n hw0 hx
  have pne : ∀ p, Processed image.width n p →
      p ≠ (n % image.width, n / image.width) :=
    fun p hp he => hnp (he ▸ hp)
  have hsucc : ∀ p, Processed image.width (n+1) p ↔
      (Processed image.width n p ∨ p = (n % image.width, n / image.width)) := by
    intro p
    rw [processed_succ image.width n hw0 p]
    constructor
    · rintro (h | ⟨_, h⟩)
      · exact Or.inl h
      · exact Or.inr h
    · rintro (h | rfl)
      · exact Or.inl h
      · exact Or.inr ⟨hx, rfl⟩
  have hFp : Fg image t3 (n % image.width, n / image.width) := ⟨hx, hy, himg⟩
  have hlw : n % image.width < li.w := by rw [H.hw]; exact hx
  have hlh : n / image.width < li.h := by rw [H.hh]; exact hy
  have hvb : 1 ≤ v ∧ v ≤ li.aliases.length := by
    have := H.fg_pos r hSr hFr
    rw [hgr] at this
    exact this
  have hres : 1 ≤ resolve li v ∧ resolve li v ≤ li.aliases.length := by
    have h1 := H.resolve_ge v hvb.1 hvb.2
    have h2 := H.resolve_le v hvb.1 hvb.2
    omega
  rw [heq]
  refine ⟨?_, ?_, ?_, ?_, ?_, ?_, ?_, ?_, ?_, ?_, ?_⟩
  · rw [set_label_w]; exact H.hw
  · rw [set_label_h]; exact H.hh
  · omega
  · exact ringZero_set_label li _ _ v hlw hlh H.ring
  · rw [set_label_aliases]
    have := H.len_le
    omega
  · intro i hi
    rw [set_label_aliases] at hi ⊢
    exact H.alias_pos i hi
  · intro i hi
    rw [set_label_aliases] at hi ⊢
    exact H.alias_le i hi
  · intro i hi
    rw [set_label_aliases] at hi ⊢
    exact H.flat i hi
  · intro p hp hF
    rcases (hsucc p).mp hp with hold | rfl
    · rw [gridAt_set_label_ne li _ _ v p hlw (by rw [H.hw]; exact hold.1)
        (pne p hold)]
      exact H.bg0 p hold hF
    · exact absurd hFp hF
  · intro p hp hFq
    rcases (hsucc p).mp hp with hold | rfl
    · rw [gridAt_set_label_ne li _ _ v p hlw (by rw [H.hw]; exact hold.1)
        (pne p hold), set_label_aliases]
      exact H.fg_pos p hold hFq
    · rw [gridAt_set_label_self, if_neg hv, set_label_aliases]
      exact hres
  · have hcls : ∀ q, Processed image.width n q → Fg image t3 q →
        cls (set_label li (n % image.width) (n / image.width) v) q =
          cls li q := by
      intro q hq hFq
      exact cls_set_label_ne li _ _ v q hlw (by rw [H.hw]; exact hq.1)
        (pne q hq)
    have hclsp :
        cls (set_label li (n % image.width) (n / image.width) v)
          (n % image.width, n / image.width) = cls li r := by
      rw [cls_set_label_self_pos li _ _ v hv,
        H.resolve_flat v hvb.1 hvb.2]
      unfold cls
      rw [hgr]
    have hstep := partition_step_inherit (cls li)
      (cls (set_label li (n % image.width) (n / image.width) v)) r
      H.part hnp hFp hSr hFr hadjr hnbr hcls hclsp
    intro p q hp hq hFp' hFq'
    exact (hstep p q ((hsucc p).mp hp) ((hsucc q).mp hq) hFp' hFq').trans
      (reachOn_congr fun u => ((hsucc u).symm))

theorem loopInv_step_N (image : IplImage) (t3 n : Nat)
    (li : koki_labelled_image_t) (hn : n < image.width * image.height)
    (H : LoopInv image t3 n li)
    (himg : above_threshold image (n % image.width) (n / image.width) t3 =
      false)
    (hN : get_connected_label li (n % image.width) (n / image.width)
      .N > 0) :
    LoopInv image t3 (n+1)
      (label_pixel image li (n % image.width) (n / image.width) t3) := by
  obtain ⟨hw0, hx, hy, hnxy⟩ := step_basics image n hn
  have hlw : n % image.width < li.w := by rw [H.hw]; exact hx
  have hlh : n / image.width < li.h := by rw [H.hh]; exact hy
  have hgN := read_N_eq li H.ring _ _ hlw hlh
  have hy1 : 1 ≤ n / image.width := by
    by_contra hc
    push_neg at hc
    rw [if_pos (Nat.lt_one_iff.mp hc)] at hgN
    omega
  rw [if_neg (Nat.pos_iff_ne_zero.mp hy1)] at hgN
  have hgr : gridAt li (n % image.width, n / image.width - 1) =
      get_connected_label li (n % image.width) (n / image.width) .N :=
    hgN.symm
  have hSr := processed_N image.width n _ _ hx hnxy hy1
  have hFr := H.fg_of_pos _ hSr (by rw [hgr]; omega)
  have hnbr : ∀ z, Processed image.width n z → Fg image t3 z →
      adj8 z (n % image.width, n / image.width) →
      ReachOn (Fg image t3) (Processed image.width n)
        (n % image.width, n / image.width - 1) z := by
    intro z hz hFz hadj
    rcases adj_processed_cases image.width n _ _ hx hnxy z hz hadj with
      ⟨hy1', rfl⟩ | ⟨hy1', hx1, rfl⟩ | ⟨hx1, hy1', rfl⟩ | ⟨hx1, rfl⟩
    · exact Relation.ReflTransGen.refl
    · exact Relation.ReflTransGen.single
        ⟨adj8_mk _ _ _ _ (by omega) (by omega) (by omega) (by omega)
          (by omega), hFr, hFz, hSr, hz⟩
    · exact Relation.ReflTransGen.single
        ⟨adj8_mk _ _ _ _ (by omega) (by omega) (by omega) (by omega)
          (by omega), hFr, hFz, hSr, hz⟩
    · exact Relation.ReflTransGen.single
        ⟨adj8_mk _ _ _ _ (by omega) (by omega) (by omega) (by omega)
          (by omega), hFr, hFz, hSr, hz⟩
  exact loopInv_step_take image t3 n li hn H himg _ (by omega) _ hSr hFr
    (adj8_mk _ _ _ _ (by omega) (by omega) (by omega) (by omega) (by omega))
    hgr hnbr (label_pixel_N_eq image li _ _ t3 himg hN)

theorem loopInv_step_NEplain (image : IplImage) (t3 n : Nat)
    (li : koki_labelled_image_t) (hn : n < image.width * image.height)
    (H : LoopInv image t3 n li)
    (himg : above_threshold image (n % image.width) (n / image.width) t3 =
      false)
    (hN : get_connected_label li (n % image.width) (n / image.width) .N = 0)
    (hNE : get_connected_label li (n % image.width) (n / image.width)
      .NE > 0)
    (hW : get_connected_label li (n % image.width) (n / image.width) .W = 0)
    (hNW : get_connected_label li (n % image.width) (n / image.width)
      .NW = 0) :
    LoopInv image t3 (n+1)
      (label_pixel image li (n % image.width) (n / image.width) t3) := by
  obtain ⟨hw0, hx, hy, hnxy⟩ := step_basics image n hn
  have hw' := H.hw
  have hlw : n % image.width < li.w := by rw [H.hw]; exact hx
  have hlh : n / image.width < li.h := by rw [H.hh]; exact hy
  have hgNE := read_NE_eq li H.ring _ _ hlw hlh
  have hok : ¬ (n / image.width = 0 ∨ n % image.width + 1 = li.w) := by
    intro hc
    rw [if_pos hc] at hgNE
    omega
  rw [if_neg hok] at hgNE
  have hy1 : 1 ≤ n / image.width := by
    rcases Nat.eq_zero_or_pos (n / image.width) with h0 | h0
    · exact absurd (Or.inl h0) hok
    · exact h0
  have hx1 : n % image.width + 1 < image.width := by
    rcases Nat.lt_or_ge (n % image.width + 1) li.w with h0 | h0
    · omega
    · exact absurd (Or.inr (by omega)) hok
  have hgr : gridAt li (n % image.width + 1, n / image.width - 1) =
      get_connected_label li (n % image.width) (n / image.width) .NE :=
    hgNE.symm
  have hSr := processed_NE image.width n _ _ hx hnxy hy1 hx1
  have hFr := H.fg_of_pos _ hSr (by rw [hgr]; omega)
  have hgN := read_N_eq li H.ring _ _ hlw hlh
  rw [if_neg (show ¬ n / image.width = 0 by omega)] at hgN
  have hgzN : gridAt li (n % image.width, n / image.width - 1) =
      get_connected_label li (n % image.width) (n / image.width) .N :=
    hgN.symm
  have hnbr : ∀ z, Processed image.width n z → Fg image t3 z →
      adj8 z (n % image.width, n / image.width) →
      ReachOn (Fg image t3) (Processed image.width n)
        (n % image.width + 1, n / image.width - 1) z := by
    intro z hz hFz hadj
    rcases adj_processed_cases image.width n _ _ hx hnxy z hz hadj with
      ⟨hy1', rfl⟩ | ⟨hy1', hx1', rfl⟩ | ⟨hx1', hy1', rfl⟩ | ⟨hx1', rfl⟩
    · have hpos := (H.fg_pos _ hz hFz).1
      rw [hgzN] at hpos
      omega
    · exact Relation.ReflTransGen.refl
    · have hgNW2 := read_NW_eq li H.ring _ _ hlw hlh
      rw [if_neg (show ¬ (n % image.width = 0 ∨ n / image.width = 0)
        by omega)] at hgNW2
      have hgz : gridAt li (n % image.width - 1, n / image.width - 1) =
          get_connected_label li (n % image.width) (n / image.width) .NW :=
        hgNW2.symm
      have hpos := (H.fg_pos _ hz hFz).1
      rw [hgz] at hpos
      omega
    · have hgW2 := read_W_eq li H.ring _ _ hlw hlh
      rw [if_neg (show ¬ n % image.width = 0 by omega)] at hgW2
      have hgz : gridAt li (n % image.width - 1, n / image.width) =
          get_connected_label li (n % image.width) (n / image.width) .W :=
        hgW2.symm
      have hpos := (H.fg_pos _ hz hFz).1
      rw [hgz] at hpos
      omega
  exact loopInv_step_take image t3 n li hn H himg _ (by omega) _ hSr hFr
    (adj8_mk _ _ _ _ (by omega) (by omega) (by omega) (by omega) (by omega))
    hgr hnbr (label_pixel_NE_eq image li _ _ t3 himg hN hNE hW hNW)

theorem loopInv_step_NW (image : IplImage) (t3 n : Nat)
    (li : koki_labelled_image_t) (hn : n < image.width * image.height)
    (H : LoopInv image t3 n li)
    (himg : above_threshold image (n % image.width) (n / image.width) t3 =
      false)
    (hN : get_connected_label li (n % image.width) (n / image.width) .N = 0)
    (hNE : get_connected_label li (n % image.width) (n / image.width)
      .NE = 0)
    (hNW : get_connected_label li (n % image.width) (n / image.width)
      .NW > 0) :
    LoopInv image t3 (n+1)
      (label_pixel image li (n % image.width) (n / image.width) t3) := by
  obtain ⟨hw0, hx, hy, hnxy⟩ := step_basics image n hn
  have hw' := H.hw
  have hlw : n % image.width < li.w := by rw [H.hw]; exact hx
  have hlh : n / image.width < li.h := by rw [H.hh]; exact hy
  have hgNW := read_NW_eq li H.ring _ _ hlw hlh
  have hok : ¬ (n % image.width = 0 ∨ n / image.width = 0) := by
    intro hc
    rw [if_pos hc] at hgNW
    omega
  rw [if_neg hok] at hgNW
  have hok2 := hok
  push_neg at hok2
  have hx1 : 1 ≤ n % image.width := Nat.pos_of_ne_zero hok2.1
  have hy1 : 1 ≤ n / image.width := Nat.pos_of_ne_zero hok2.2
  have hgr : gridAt li (n % image.width - 1, n / image.width - 1) =
      get_connected_label li (n % image.width) (n / image.width) .NW :=
    hgNW.symm
  have hSr := processed_NW image.width n _ _ hx hnxy hy1 hx1
  have hFr := H.fg_of_pos _ hSr (by rw [hgr]; omega)
  have hgN := read_N_eq li H.ring _ _ hlw hlh
  rw [if_neg (show ¬ n / image.width = 0 by omega)] at hgN
  have hgzN : gridAt li (n % image.width, n / image.width - 1) =
      get_connected_label li (n % image.width) (n / image.width) .N :=
    hgN.symm
  have hnbr : ∀ z, Processed image.width n z → Fg image t3 z →
      adj8 z (n % image.width, n / image.width) →
      ReachOn (Fg image t3) (Processed image.width n)
        (n % image.width - 1, n / image.width - 1) z := by
    intro z hz hFz hadj
    rcases adj_processed_cases image.width n _ _ hx hnxy z hz hadj with
      ⟨hy1', rfl⟩ | ⟨hy1', hx1', rfl⟩ | ⟨hx1', hy1', rfl⟩ | ⟨hx1', rfl⟩
    · have hpos := (H.fg_pos _ hz hFz).1
      rw [hgzN] at hpos
      omega
    · have hgNE2 := read_NE_eq li H.ring _ _ hlw hlh
      rw [if_neg (show ¬ (n / image.width = 0 ∨
        n % image.width + 1 = li.w) by omega)] at hgNE2
      have hgz : gridAt li (n % image.width + 1, n / image.width - 1) =
          get_connected_label li (n % image.width) (n / image.width) .NE :=
        hgNE2.symm
      have hpos := (H.fg_pos _ hz hFz).1
      rw [hgz] at hpos
      omega
    · exact Relation.ReflTransGen.refl
    · exact Relation.ReflTransGen.single
        ⟨adj8_mk _ _ _ _ (by omega) (by omega) (by omega) (by omega)
          (by omega), hFr, hFz, hSr, hz⟩
  exact loopInv_step_take image t3 n li hn H himg _ (by omega) _ hSr hFr
    (adj8_mk _ _ _ _ (by omega) (by omega) (by omega) (by omega) (by omega))
    hgr hnbr (label_pixel_NW_eq image li _ _ t3 himg hN hNE hNW)

theorem loopInv_step_W (image : IplImage) (t3 n : Nat)
    (li : koki_labelled_image_t) (hn : n < image.width * image.height)
    (H : LoopInv image t3 n li)
    (himg : above_threshold image (n % image.width) (n / image.width) t3 =
      false)
    (hN : get_connected_label li (n % image.width) (n / image.width) .N = 0)
    (hNE : get_connected_label li (n % image.width) (n / image.width)
      .NE = 0)
    (hNW : get_connected_label li (n % image.width) (n / image.width)
      .NW = 0)
    (hW : get_connected_label li (n % image.width) (n / image.width)
      .W > 0) :
    LoopInv image t3 (n+1)
      (label_pixel image li (n % image.width) (n / image.width) t3) := by
  obtain ⟨hw0, hx, hy, hnxy⟩ := step_basics image n hn
  have hw' := H.hw
  have hlw : n % image.width < li.w := by rw [H.hw]; exact hx
  have hlh : n / image.width < li.h := by rw [H.hh]; exact hy
  have hgW := read_W_eq li H.ring _ _ hlw hlh
  have hx1 : 1 ≤ n % image.width := by
    rcases Nat.eq_zero_or_pos (n % image.width) with h0 | h0
    · rw [if_pos h0] at hgW
      omega
    · exact h0
  rw [if_neg (show ¬ n % image.width = 0 by omega)] at hgW
  have hgr : gridAt li (n % image.width - 1, n / image.width) =
      get_connected_label li (n % image.width) (n / image.width) .W :=
    hgW.symm
  have hSr := processed_W image.width n _ _ hx hnxy hx1
  have hFr := H.fg_of_pos _ hSr (by rw [hgr]; omega)
  have hnbr : ∀ z, Processed image.width n z → Fg image t3 z →
      adj8 z (n % image.width, n / image.width) →
      ReachOn (Fg image t3) (Processed image.width n)
        (n % image.width - 1, n / image.width) z := by
    intro z hz hFz hadj
    rcases adj_processed_cases image.width n _ _ hx hnxy z hz hadj with
      ⟨hy1', rfl⟩ | ⟨hy1', hx1', rfl⟩ | ⟨hx1', hy1', rfl⟩ | ⟨hx1', rfl⟩
    · have hgN2 := read_N_eq li H.ring _ _ hlw hlh
      rw [if_neg (show ¬ n / image.width = 0 by omega)] at hgN2
      have hgz : gridAt li (n % image.width, n / image.width - 1) =
          get_connected_label li (n % image.width) (n / image.width) .N :=
        hgN2.symm
      have hpos := (H.fg_pos _ hz hFz).1
      rw [hgz] at hpos
      omega
    · have hgNE2 := read_NE_eq li H.ring _ _ hlw hlh
      rw [if_neg (show ¬ (n / image.width = 0 ∨
        n % image.width + 1 = li.w) by omega)] at hgNE2
      have hgz : gridAt li (n % image.width + 1, n / image.width - 1) =
          get_connected_label li (n % image.width) (n / image.width) .NE :=
        hgNE2.symm
      have hpos := (H.fg_pos _ hz hFz).1
      rw [hgz] at hpos
      omega
    · have hgNW2 := read_NW_eq li H.ring _ _ hlw hlh
      rw [if_neg (show ¬ (n % image.width = 0 ∨ n / image.width = 0)
        by omega)] at hgNW2
      have hgz : gridAt li (n % image.width - 1, n / image.width - 1) =
          get_connected_label li (n % image.width) (n / image.width) .NW :=
        hgNW2.symm
      have hpos := (H.fg_pos _ hz hFz).1
      rw [hgz] at hpos
      omega
    · exact Relation.ReflTransGen.refl
  exact loopInv_step_take image t3 n li hn H himg _ (by omega) _ hSr hFr
    (adj8_mk _ _ _ _ (by omega) (by omega) (by omega) (by omega) (by omega))
    hgr hnbr (label_pixel_W_eq image li _ _ t3 himg hN hNE hNW hW)

theorem natMinMax_cases (a b : Nat) :
    (Nat.min a b = a ∧ Nat.max a b = b) ∨
      (Nat.min a b = b ∧ Nat.max a b = a) := by
  simp only [Nat.min_def, Nat.max_def]
  by_cases h : a ≤ b
  · rw [if_pos h, if_pos h]
    exact Or.inl ⟨rfl, rfl⟩
  · rw [if_neg h, if_neg h]
    exact Or.inr ⟨rfl, rfl⟩

theorem natMin_le_max (a b : Nat) : Nat.min a b ≤ Nat.max a b := by
  simp only [Nat.min_def, Nat.max_def]
  by_cases h : a ≤ b
  · rw [if_pos h, if_pos h]
    exact h
  · rw [if_neg h, if_neg h]
    omega

/-- Common case: the current foreground pixel merges the class of `r1`
(North-East) with the class of `r2` (North-West or West): the larger of the
two canonical ids is rewritten to the smaller throughout the alias table,
and the pixel is labelled with the smaller. -/
theorem loopInv_step_merge_common (image : IplImage) (t3 n : Nat)
    (li : koki_labelled_image_t) (hn : n < image.width * image.height)
    (H : LoopInv image t3 n li)
    (himg : above_threshold image (n % image.width) (n / image.width) t3 =
      false)
    (l1 l2 : Nat) (r1 r2 : Nat × Nat)
    (hSr1 : Processed image.width n r1) (hFr1 : Fg image t3 r1)
    (hadj1 : adj8 r1 (n % image.width, n / image.width))
    (hSr2 : Processed image.width n r2) (hFr2 : Fg image t3 r2)
    (hadj2 : adj8 r2 (n % image.width, n / image.width))
    (hl1 : l1 = resolve li (gridAt li r1))
    (hl2 : l2 = resolve li (gridAt li r2))
    (hnbr : ∀ z, Processed image.width n z → Fg image t3 z →
      adj8 z (n % image.width, n / image.width) →
      ReachOn (Fg image t3) (Processed image.width n) r1 z ∨
        ReachOn (Fg image t3) (Processed image.width n) r2 z)
    (hals : (label_pixel image li (n % image.width) (n / image.width)
        t3).aliases =
      li.aliases.map (fun a => if a = Nat.max l1 l2 then Nat.min l1 l2 else a))
    (hdat : (label_pixel image li (n % image.width) (n / image.width)
        t3).data =
      (set_label li (n % image.width) (n / image.width)
        (Nat.min l1 l2)).data) :
    LoopInv image t3 (n+1)
      (label_pixel image li (n % image.width) (n / image.width) t3) := by
  obtain ⟨hw0, hx, hy, hnxy⟩ := step_basics image n hn
  have hnp : ¬ Processed image.width n (n % image.width, n / image.width) :=
    not_processed_self image.width n hw0 hx
  have pne : ∀ p, Processed image.width n p →
      p ≠ (n % image.width, n / image.width) :=
    fun p hp he => hnp (he ▸ hp)
  have hsucc : ∀ p, Processed image.width (n+1) p ↔
      (Processed image.width n p ∨ p = (n % image.width, n / image.width)) := by
    intro p
    rw [processed_succ image.width n hw0 p]
    constructor
    · rintro (h | ⟨_, h⟩)
      · exact Or.inl h
      · exact Or.inr h
    · rintro (h | rfl)
      · exact Or.inl h
      · exact Or.inr ⟨hx, rfl⟩
  have hFp : Fg image t3 (n % image.width, n / image.width) := ⟨hx, hy, himg⟩
  have hlw : n % image.width < li.w := by rw [H.hw]; exact hx
  have hlh : n / image.width < li.h := by rw [H.hh]; exact hy
  have hg1 := H.fg_pos r1 hSr1 hFr1
  have hg2 := H.fg_pos r2 hSr2 hFr2
  have hl1b : 1 ≤ l1 ∧ l1 ≤ li.aliases.length := by
    rw [hl1]
    have ha := H.resolve_ge (gridAt li r1) hg1.1 hg1.2
    have hb := H.resolve_le (gridAt li r1) hg1.1 hg1.2
    omega
  have hl2b : 1 ≤ l2 ∧ l2 ≤ li.aliases.length := by
    rw [hl2]
    have ha := H.resolve_ge (gridAt li r2) hg2.1 hg2.2
    have hb := H.resolve_le (gridAt li r2) hg2.1 hg2.2
    omega
  have hl1flat : resolve li l1 = l1 := by
    rw [hl1]
    exact H.resolve_flat (gridAt li r1) hg1.1 hg1.2
  have hl2flat : resolve li l2 = l2 := by
    rw [hl2]
    exact H.resolve_flat (gridAt li r2) hg2.1 hg2.2
  have hlob : 1 ≤ Nat.min l1 l2 ∧ Nat.min l1 l2 ≤ li.aliases.length := by
    rcases natMinMax_cases l1 l2 with ⟨hm, _⟩ | ⟨hm, _⟩
    · rw [hm]; exact hl1b
    · rw [hm]; exact hl2b
  have hloflat : resolve li (Nat.min l1 l2) = Nat.min l1 l2 := by
    rcases natMinMax_cases l1 l2 with ⟨hm, _⟩ | ⟨hm, _⟩
    · rw [hm]; exact hl1flat
    · rw [hm]; exact hl2flat
  have hlohi : Nat.min l1 l2 ≤ Nat.max l1 l2 := natMin_le_max l1 l2
  -- the grid of the new state seen as a `set_label`
  have hgeq : ∀ p, gridAt (label_pixel image li (n % image.width)
      (n / image.width) t3) p =
      gridAt (set_label li (n % image.width) (n / image.width)
        (Nat.min l1 l2)) p := by
    intro p
    show (label_pixel image li (n % image.width) (n / image.width) t3).data
        ((p.2+1) * ((label_pixel image li (n % image.width)
          (n / image.width) t3).w + 2) + (p.1+1)) = _
    rw [label_pixel_w, hdat]
    show _ = (set_label li (n % image.width) (n / image.width)
        (Nat.min l1 l2)).data
      ((p.2+1) * ((set_label li (n % image.width) (n / image.width)
        (Nat.min l1 l2)).w + 2) + (p.1+1))
    rw [set_label_w]
  -- resolution in the new state collapses `hi` to `lo`
  have hres' : ∀ v, 1 ≤ v → v ≤ li.aliases.length →
      resolve (label_pixel image li (n % image.width) (n / image.width) t3)
        v =
      (if resolve li v = Nat.max l1 l2 then Nat.min l1 l2
        else resolve li v) := by
    intro v hv1 hv2
    unfold resolve
    rw [hals]
    exact getD_map_collapse li.aliases _ _ (v-1) (by omega)
  have hgp : gridAt (label_pixel image li (n % image.width)
      (n / image.width) t3) (n % image.width, n / image.width) =
      Nat.min l1 l2 := by
    rw [hgeq, gridAt_set_label_self,
      if_neg (show ¬ Nat.min l1 l2 = 0 by omega)]
    exact hloflat
  have hlen : (label_pixel image li (n % image.width) (n / image.width)
      t3).aliases.length = li.aliases.length := by
    rw [hals, List.length_map]
  refine ⟨?_, ?_, ?_, ?_, ?_, ?_, ?_, ?_, ?_, ?_, ?_⟩
  · rw [label_pixel_w]; exact H.hw
  · rw [label_pixel_h]; exact H.hh
  · omega
  · intro idx hidx
    rw [label_pixel_w, label_pixel_h] at hidx
    show (label_pixel image li (n % image.width) (n / image.width) t3).data
      idx = 0
    rw [hdat]
    exact ringZero_set_label li _ _ _ hlw hlh H.ring idx
      (by rw [set_label_w, set_label_h]; exact hidx)
  · rw [hlen]
    have := H.len_le
    omega
  · intro i hi
    rw [hlen] at hi
    rw [hals, getD_map_collapse li.aliases _ _ i hi]
    have := H.alias_pos i hi
    split <;> omega
  · intro i hi
    rw [hlen] at hi
    rw [hals, getD_map_collapse li.aliases _ _ i hi]
    have := H.alias_le i hi
    split <;> omega
  · intro i hi
    rw [hlen] at hi
    have hvi1 := H.alias_pos i hi
    have hvi2 := H.alias_le i hi
    have hvib : li.aliases.getD i 0 ≤ li.aliases.length := by omega
    rw [hals, getD_map_collapse li.aliases _ _ i hi]
    split_ifs with hcase
    · -- the slot held `hi` and now holds `lo`
      rw [getD_map_collapse li.aliases (Nat.min l1 l2) (Nat.max l1 l2)
        (Nat.min l1 l2 - 1) (by omega)]
      have hself : li.aliases.getD (Nat.min l1 l2 - 1) 0 = Nat.min l1 l2 :=
        hloflat
      rw [hself, ite_self]
    · rw [getD_map_collapse li.aliases (Nat.min l1 l2) (Nat.max l1 l2)
        (li.aliases.getD i 0 - 1) (by omega)]
      rw [H.flat i hi, if_neg hcase]
  · intro p hp hF
    rcases (hsucc p).mp hp with hold | rfl
    · rw [hgeq, gridAt_set_label_ne li _ _ _ p hlw
        (by rw [H.hw]; exact hold.1) (pne p hold)]
      exact H.bg0 p hold hF
    · exact absurd hFp hF
  · intro p hp hFq
    rcases (hsucc p).mp hp with hold | rfl
    · rw [hgeq, gridAt_set_label_ne li _ _ _ p hlw
        (by rw [H.hw]; exact hold.1) (pne p hold), hlen]
      exact H.fg_pos p hold hFq
    · rw [hgp, hlen]
      exact hlob
  · have hcls : ∀ q, Processed image.width n q → Fg image t3 q →
        cls (label_pixel image li (n % image.width) (n / image.width) t3)
          q =
        (if cls li q = Nat.max l1 l2 then Nat.min l1 l2 else cls li q) := by
      intro q hq hFq
      have hgq := H.fg_pos q hq hFq
      unfold cls
      rw [hgeq, gridAt_set_label_ne li _ _ _ q hlw
        (by rw [H.hw]; exact hq.1) (pne q hq)]
      exact hres' (gridAt li q) hgq.1 hgq.2
    have hclsp : cls (label_pixel image li (n % image.width)
        (n / image.width) t3) (n % image.width, n / image.width) =
        Nat.min l1 l2 := by
      unfold cls
      rw [hgp]
      rw [hres' (Nat.min l1 l2) hlob.1 hlob.2, hloflat]
      exact ite_self _
    have hset : (Nat.min l1 l2 = cls li r1 ∧ Nat.max l1 l2 = cls li r2) ∨
        (Nat.min l1 l2 = cls li r2 ∧ Nat.max l1 l2 = cls li r1) := by
      have hc1 : cls li r1 = l1 := hl1.symm
      have hc2 : cls li r2 = l2 := hl2.symm
      rcases natMinMax_cases l1 l2 with ⟨hm, hM⟩ | ⟨hm, hM⟩
      · exact Or.inl ⟨by rw [hm, hc1], by rw [hM, hc2]⟩
      · exact Or.inr ⟨by rw [hm, hc2], by rw [hM, hc1]⟩
    have hstep := partition_step_merge (cls li)
      (cls (label_pixel image li (n % image.width) (n / image.width) t3))
      r1 r2 (Nat.min l1 l2) (Nat.max l1 l2)
      H.part hnp hFp hSr1 hFr1 hadj1 hSr2 hFr2 hadj2 hnbr hset hcls hclsp
    intro p q hp hq hFp' hFq'
    exact (hstep p q ((hsucc p).mp hp) ((hsucc q).mp hq) hFp' hFq').trans
      (reachOn_congr fun u => ((hsucc u).symm))

theorem loopInv_step_mergeNW (image : IplImage) (t3 n : Nat)
    (li : koki_labelled_image_t) (hn : n < image.width * image.height)
    (H : LoopInv image t3 n li)
    (himg : above_threshold image (n % image.width) (n / image.width) t3 =
      false)
    (hN : get_connected_label li (n % image.width) (n / image.width) .N = 0)
    (hNE : get_connected_label li (n % image.width) (n / image.width)
      .NE > 0)
    (hNW : get_connected_label li (n % image.width) (n / image.width)
      .NW > 0) :
    LoopInv image t3 (n+1)
      (label_pixel image li (n % image.width) (n / image.width) t3) := by
  obtain ⟨hw0, hx, hy, hnxy⟩ := step_basics image n hn
  have hw' := H.hw
  have hlw : n % image.width < li.w := by rw [H.hw]; exact hx
  have hlh : n / image.width < li.h := by rw [H.hh]; exact hy
  have hgNE := read_NE_eq li H.ring _ _ hlw hlh
  have hok1 : ¬ (n / image.width = 0 ∨ n % image.width + 1 = li.w) := by
    intro hc
    rw [if_pos hc] at hgNE
    omega
  rw [if_neg hok1] at hgNE
  have hgNW := read_NW_eq li H.ring _ _ hlw hlh
  have hok2 : ¬ (n % image.width = 0 ∨ n / image.width = 0) := by
    intro hc
    rw [if_pos hc] at hgNW
    omega
  rw [if_neg hok2] at hgNW
  have hok1' := hok1
  have hok2' := hok2
  push_neg at hok1' hok2'
  have hy1 : 1 ≤ n / image.width := Nat.pos_of_ne_zero hok1'.1
  have hx1 : 1 ≤ n % image.width := Nat.pos_of_ne_zero hok2'.1
  have hx2 : n % image.width + 1 < image.width := by omega
  have hgr1 : gridAt li (n % image.width + 1, n / image.width - 1) =
      get_connected_label li (n % image.width) (n / image.width) .NE :=
    hgNE.symm
  have hgr2 : gridAt li (n % image.width - 1, n / image.width - 1) =
      get_connected_label li (n % image.width) (n / image.width) .NW :=
    hgNW.symm
  have hSr1 := processed_NE image.width n _ _ hx hnxy hy1 hx2
  have hSr2 := processed_NW image.width n _ _ hx hnxy hy1 hx1
  have hFr1 := H.fg_of_pos _ hSr1 (by rw [hgr1]; omega)
  have hFr2 := H.fg_of_pos _ hSr2 (by rw [hgr2]; omega)
  have hgN := read_N_eq li H.ring _ _ hlw hlh
  rw [if_neg (Nat.pos_iff_ne_zero.mp hy1)] at hgN
  have hgzN : gridAt li (n % image.width, n / image.width - 1) =
      get_connected_label li (n % image.width) (n / image.width) .N :=
    hgN.symm
  have hnbr : ∀ z, Processed image.width n z → Fg image t3 z →
      adj8 z (n % image.width, n / image.width) →
      ReachOn (Fg image t3) (Processed image.width n)
        (n % image.width + 1, n / image.width - 1) z ∨
      ReachOn (Fg image t3) (Processed image.width n)
        (n % image.width - 1, n / image.width - 1) z := by
    intro z hz hFz hadj
    rcases adj_processed_cases image.width n _ _ hx hnxy z hz hadj with
      ⟨hy1', rfl⟩ | ⟨hy1', hx1', rfl⟩ | ⟨hx1', hy1', rfl⟩ | ⟨hx1', rfl⟩
    · have hpos := (H.fg_pos _ hz hFz).1
      rw [hgzN] at hpos
      omega
    · exact Or.inl Relation.ReflTransGen.refl
    · exact Or.inr Relation.ReflTransGen.refl
    · exact Or.inr (Relation.ReflTransGen.single
        ⟨adj8_mk _ _ _ _ (by omega) (by omega) (by omega) (by omega)
          (by omega), hFr2, hFz, hSr2, hz⟩)
  have hml := label_pixel_merge_eq image li (n % image.width)
    (n / image.width) t3 himg hN hNE (Or.inr hNW)
    (li.aliases.getD
      (get_connected_label li (n % image.width) (n / image.width) .NE - 1) 0)
    (li.aliases.getD
      (get_connected_label li (n % image.width) (n / image.width) .NW - 1) 0)
    rfl (if_pos hNW).symm
  exact loopInv_step_merge_common image t3 n li hn H himg _ _ _ _
    hSr1 hFr1
    (adj8_mk _ _ _ _ (by omega) (by omega) (by omega) (by omega) (by omega))
    hSr2 hFr2
    (adj8_mk _ _ _ _ (by omega) (by omega) (by omega) (by omega) (by omega))
    (by unfold resolve; rw [hgr1]) (by unfold resolve; rw [hgr2])
    hnbr hml.1 hml.2

theorem loopInv_step_mergeW (image : IplImage) (t3 n : Nat)
    (li : koki_labelled_image_t) (hn : n < image.width * image.height)
    (H : LoopInv image t3 n li)
    (himg : above_threshold image (n % image.width) (n / image.width) t3 =
      false)
    (hN : get_connected_label li (n % image.width) (n / image.width) .N = 0)
    (hNE : get_connected_label li (n % image.width) (n / image.width)
      .NE > 0)
    (hNW : get_connected_label li (n % image.width) (n / image.width)
      .NW = 0)
    (hW : get_connected_label li (n % image.width) (n / image.width)
      .W > 0) :
    LoopInv image t3 (n+1)
      (label_pixel image li (n % image.width) (n / image.width) t3) := by
  obtain ⟨hw0, hx, hy, hnxy⟩ := step_basics image n hn
  have hw' := H.hw
  have hlw : n % image.width < li.w := by rw [H.hw]; exact hx
  have hlh : n / image.width < li.h := by rw [H.hh]; exact hy
  have hgNE := read_NE_eq li H.ring _ _ hlw hlh
  have hok1 : ¬ (n / image.width = 0 ∨ n % image.width + 1 = li.w) := by
    intro hc
    rw [if_pos hc] at hgNE
    omega
  rw [if_neg hok1] at hgNE
  have hgW := read_W_eq li H.ring _ _ hlw hlh
  have hx1 : 1 ≤ n % image.width := by
    rcases Nat.eq_zero_or_pos (n % image.width) with h0 | h0
    · rw [if_pos h0] at hgW
      omega
    · exact h0
  rw [if_neg (Nat.pos_iff_ne_zero.mp hx1)] at hgW
  have hok1' := hok1
  push_neg at hok1'
  have hy1 : 1 ≤ n / image.width := Nat.pos_of_ne_zero hok1'.1
  have hx2 : n % image.width + 1 < image.width := by omega
  have hgr1 : gridAt li (n % image.width + 1, n / image.width - 1) =
      get_connected_label li (n % image.width) (n / image.width) .NE :=
    hgNE.symm
  have hgr2 : gridAt li (n % image.width - 1, n / image.width) =
      get_connected_label li (n % image.width) (n / image.width) .W :=
    hgW.symm
  have hSr1 := processed_NE image.width n _ _ hx hnxy hy1 hx2
  have hSr2 := processed_W image.width n _ _ hx hnxy hx1
  have hFr1 := H.fg_of_pos _ hSr1 (by rw [hgr1]; omega)
  have hFr2 := H.fg_of_pos _ hSr2 (by rw [hgr2]; omega)
  have hgN := read_N_eq li H.ring _ _ hlw hlh
  rw [if_neg (Nat.pos_iff_ne_zero.mp hy1)] at hgN
  have hgzN : gridAt li (n % image.width, n / image.width - 1) =
      get_connected_label li (n % image.width) (n / image.width) .N :=
    hgN.symm
  have hgNW2 := read_NW_eq li H.ring _ _ hlw hlh
  rw [if_neg (show ¬ (n % image.width = 0 ∨ n / image.width = 0)
    by omega)] at hgNW2
  have hgzNW : gridAt li (n % image.width - 1, n / image.width - 1) =
      get_connected_label li (n % image.width) (n / image.width) .NW :=
    hgNW2.symm
  have hnbr : ∀ z, Processed image.width n z → Fg image t3 z →
      adj8 z (n % image.width, n / image.width) →
      ReachOn (Fg image t3) (Processed image.width n)
        (n % image.width + 1, n / image.width - 1) z ∨
      ReachOn (Fg image t3) (Processed image.width n)
        (n % image.width - 1, n / image.width) z := by
    intro z hz hFz hadj
    rcases adj_processed_cases image.width n _ _ hx hnxy z hz hadj with
      ⟨hy1', rfl⟩ | ⟨hy1', hx1', rfl⟩ | ⟨hx1', hy1', rfl⟩ | ⟨hx1', rfl⟩
    · have hpos := (H.fg_pos _ hz hFz).1
      rw [hgzN] at hpos
      omega
    · exact Or.inl Relation.ReflTransGen.refl
    · have hpos := (H.fg_pos _ hz hFz).1
      rw [hgzNW] at hpos
      omega
    · exact Or.inr Relation.ReflTransGen.refl
  have hml := label_pixel_merge_eq image li (n % image.width)
    (n / image.width) t3 himg hN hNE (Or.inl hW)
    (li.aliases.getD
      (get_connected_label li (n % image.width) (n / image.width) .NE - 1) 0)
    (li.aliases.getD
      (get_connected_label li (n % image.width) (n / image.width) .W - 1) 0)
    rfl (if_neg (show ¬ get_connected_label li (n % image.width)
      (n / image.width) .NW > 0 by omega)).symm
  exact loopInv_step_merge_common image t3 n li hn H himg _ _ _ _
    hSr1 hFr1
    (adj8_mk _ _ _ _ (by omega) (by omega) (by omega) (by omega) (by omega))
    hSr2 hFr2
    (adj8_mk _ _ _ _ (by omega) (by omega) (by omega) (by omega) (by omega))
    (by unfold resolve; rw [hgr1]) (by unfold resolve; rw [hgr2])
    hnbr hml.1 hml.2

theorem loopInv_step_new (image : IplImage) (t3 n : Nat)
    (li : koki_labelled_image_t)
    (Hsz : image.width * image.height < 32768)
    (hn : n < image.width * image.height)
    (H : LoopInv image t3 n li)
    (himg : above_threshold image (n % image.width) (n / image.width) t3 =
      false)
    (hN : get_connected_label li (n % image.width) (n / image.width) .N = 0)
    (hNE : get_connected_label li (n % image.width) (n / image.width)
      .NE = 0)
    (hNW : get_connected_label li (n % image.width) (n / image.width)
      .NW = 0)
    (hW : get_connected_label li (n % image.width) (n / image.width)
      .W = 0) :
    LoopInv image t3 (n+1)
      (label_pixel image li (n % image.width) (n / image.width) t3) := by
  obtain ⟨hw0, hx, hy, hnxy⟩ := step_basics image n hn
  have hw' := H.hw
  have hnp : ¬ Processed image.width n (n % image.width, n / image.width) :=
    not_processed_self image.width n hw0 hx
  have pne : ∀ p, Processed image.width n p →
      p ≠ (n % image.width, n / image.width) :=
    fun p hp he => hnp (he ▸ hp)
  have hsucc : ∀ p, Processed image.width (n+1) p ↔
      (Processed image.width n p ∨ p = (n % image.width, n / image.width)) := by
    intro p
    rw [processed_succ image.width n hw0 p]
    constructor
    · rintro (h | ⟨_, h⟩)
      · exact Or.inl h
      · exact Or.inr h
    · rintro (h | rfl)
      · exact Or.inl h
      · exact Or.inr ⟨hx, rfl⟩
  have hFp : Fg image t3 (n % image.width, n / image.width) := ⟨hx, hy, himg⟩
  have hlw : n % image.width < li.w := by rw [H.hw]; exact hx
  have hlh : n / image.width < li.h := by rw [H.hh]; exact hy
  have hL := H.len_le
  have hlab : (li.aliases.length + 1) % 65536 = li.aliases.length + 1 :=
    Nat.mod_eq_of_lt (by omega)
  have heq := label_pixel_new_eq image li _ _ t3 himg hN hNE hNW hW
  rw [hlab] at heq
  rw [heq]
  have hgpv : gridAt (set_label
      { li with aliases := li.aliases ++ [li.aliases.length + 1] }
      (n % image.width) (n / image.width) (li.aliases.length + 1))
      (n % image.width, n / image.width) = li.aliases.length + 1 := by
    rw [gridAt_set_label_self,
      if_neg (show ¬ (li.aliases.length + 1 = 0) by omega)]
    exact getD_append_self li.aliases (li.aliases.length + 1)
  -- neighbour reads: every candidate neighbour is background
  have hnbr : ∀ z, Processed image.width n z → Fg image t3 z →
      ¬ adj8 z (n % image.width, n / image.width) := by
    intro z hz hFz hadj
    rcases adj_processed_cases image.width n _ _ hx hnxy z hz hadj with
      ⟨hy1', rfl⟩ | ⟨hy1', hx1', rfl⟩ | ⟨hx1', hy1', rfl⟩ | ⟨hx1', rfl⟩
    · have hgN2 := read_N_eq li H.ring _ _ hlw hlh
      rw [if_neg (Nat.pos_iff_ne_zero.mp hy1')] at hgN2
      have hgz : gridAt li (n % image.width, n / image.width - 1) =
          get_connected_label li (n % image.width) (n / image.width) .N :=
        hgN2.symm
      have hpos := (H.fg_pos _ hz hFz).1
      rw [hgz] at hpos
      omega
    · have hgNE2 := read_NE_eq li H.ring _ _ hlw hlh
      rw [if_neg (show ¬ (n / image.width = 0 ∨
        n % image.width + 1 = li.w) by omega)] at hgNE2
      have hgz : gridAt li (n % image.width + 1, n / image.width - 1) =
          get_connected_label li (n % image.width) (n / image.width) .NE :=
        hgNE2.symm
      have hpos := (H.fg_pos _ hz hFz).1
      rw [hgz] at hpos
      omega
    · have hgNW2 := read_NW_eq li H.ring _ _ hlw hlh
      rw [if_neg (show ¬ (n % image.width = 0 ∨ n / image.width = 0)
        by omega)] at hgNW2
      have hgz : gridAt li (n % image.width - 1, n / image.width - 1) =
          get_connected_label li (n % image.width) (n / image.width) .NW :=
        hgNW2.symm
      have hpos := (H.fg_pos _ hz hFz).1
      rw [hgz] at hpos
      omega
    · have hgW2 := read_W_eq li H.ring _ _ hlw hlh
      rw [if_neg (Nat.pos_iff_ne_zero.mp hx1')] at hgW2
      have hgz : gridAt li (n % image.width - 1, n / image.width) =
          get_connected_label li (n % image.width) (n / image.width) .W :=
        hgW2.symm
      have hpos := (H.fg_pos _ hz hFz).1
      rw [hgz] at hpos
      omega
  refine ⟨?_, ?_, ?_, ?_, ?_, ?_, ?_, ?_, ?_, ?_, ?_⟩
  · rw [set_label_w]; exact H.hw
  · rw [set_label_h]; exact H.hh
  · omega
  · exact ringZero_set_label _ _ _ _ hlw hlh H.ring
  · rw [set_label_aliases]
    show (li.aliases ++ [li.aliases.length + 1]).length ≤ n + 1
    rw [List.length_append]
    simp only [List.length_singleton]
    omega
  · intro i hi
    rw [set_label_aliases] at hi ⊢
    show 1 ≤ (li.aliases ++ [li.aliases.length + 1]).getD i 0
    have hi' : i < li.aliases.length + 1 := by
      have : ({ li with aliases :=
          li.aliases ++ [li.aliases.length + 1] }).aliases.length =
          li.aliases.length + 1 := by
        show (li.aliases ++ [li.aliases.length + 1]).length = _
        rw [List.length_append]
        simp
      omega
    rcases Nat.lt_or_ge i li.aliases.length with hlt | hge
    · rw [getD_append_left li.aliases _ i hlt]
      exact H.alias_pos i hlt
    · have hieq : i = li.aliases.length := by omega
      rw [hieq, getD_append_self]
      omega
  · intro i hi
    rw [set_label_aliases] at hi ⊢
    show (li.aliases ++ [li.aliases.length + 1]).getD i 0 ≤ i + 1
    have hi' : i < li.aliases.length + 1 := by
      have : ({ li with aliases :=
          li.aliases ++ [li.aliases.length + 1] }).aliases.length =
          li.aliases.length + 1 := by
        show (li.aliases ++ [li.aliases.length + 1]).length = _
        rw [List.length_append]
        simp
      omega
    rcases Nat.lt_or_ge i li.aliases.length with hlt | hge
    · rw [getD_append_left li.aliases _ i hlt]
      have := H.alias_le i hlt
      omega
    · have hieq : i = li.aliases.length := by omega
      rw [hieq, getD_append_self]
  · intro i hi
    rw [set_label_aliases] at hi ⊢
    show (li.aliases ++ [li.aliases.length + 1]).getD
        ((li.aliases ++ [li.aliases.length + 1]).getD i 0 - 1) 0 =
      (li.aliases ++ [li.aliases.length + 1]).getD i 0
    have hi' : i < li.aliases.length + 1 := by
      have : ({ li with aliases :=
          li.aliases ++ [li.aliases.length + 1] }).aliases.length =
          li.aliases.length + 1 := by
        show (li.aliases ++ [li.aliases.length + 1]).length = _
        rw [List.length_append]
        simp
      omega
    rcases Nat.lt_or_ge i li.aliases.length with hlt | hge
    · rw [getD_append_left li.aliases _ i hlt]
      have h1 := H.alias_pos i hlt
      have h2 := H.alias_le i hlt
      rw [getD_append_left li.aliases _ _ (by omega)]
      exact H.flat i hlt
    · have hieq : i = li.aliases.length := by omega
      rw [hieq, getD_append_self]
      have hred : li.aliases.length + 1 - 1 = li.aliases.length := by omega
      rw [hred, getD_append_self]
  · intro p hp hF
    rcases (hsucc p).mp hp with hold | rfl
    · rw [gridAt_set_label_ne
        { li with aliases := li.aliases ++ [li.aliases.length + 1] }
        _ _ _ p hlw (show p.1 < li.w by rw [H.hw]; exact hold.1)
        (pne p hold)]
      exact H.bg0 p hold hF
    · exact absurd hFp hF
  · intro p hp hFq
    rcases (hsucc p).mp hp with hold | rfl
    · rw [gridAt_set_label_ne
        { li with aliases := li.aliases ++ [li.aliases.length + 1] }
        _ _ _ p hlw (show p.1 < li.w by rw [H.hw]; exact hold.1)
        (pne p hold), set_label_aliases]
      show 1 ≤ gridAt li p ∧ gridAt li p ≤
        (li.aliases ++ [li.aliases.length + 1]).length
      rw [List.length_append]
      have := H.fg_pos p hold hFq
      simp only [List.length_singleton]
      omega
    · rw [hgpv, set_label_aliases]
      show 1 ≤ li.aliases.length + 1 ∧ li.aliases.length + 1 ≤
        (li.aliases ++ [li.aliases.length + 1]).length
      rw [List.length_append]
      simp only [List.length_singleton]
      omega
  · have hcls : ∀ q, Processed image.width n q → Fg image t3 q →
        cls (set_label
          { li with aliases := li.aliases ++ [li.aliases.length + 1] }
          (n % image.width) (n / image.width) (li.aliases.length + 1)) q =
          cls li q := by
      intro q hq hFq
      have hgq := H.fg_pos q hq hFq
      unfold cls resolve
      rw [set_label_aliases,
        gridAt_set_label_ne
          { li with aliases := li.aliases ++ [li.aliases.length + 1] }
          _ _ _ q hlw (show q.1 < li.w by rw [H.hw]; exact hq.1)
          (pne q hq)]
      show (li.aliases ++ [li.aliases.length + 1]).getD
        (gridAt li q - 1) 0 = _
      rw [getD_append_left li.aliases _ _ (by omega)]
    have hclsp : cls (set_label
        { li with aliases := li.aliases ++ [li.aliases.length + 1] }
        (n % image.width) (n / image.width) (li.aliases.length + 1))
        (n % image.width, n / image.width) = li.aliases.length + 1 := by
      unfold cls resolve
      rw [hgpv, set_label_aliases]
      show (li.aliases ++ [li.aliases.length + 1]).getD
        (li.aliases.length + 1 - 1) 0 = _
      have hred : li.aliases.length + 1 - 1 = li.aliases.length := by omega
      rw [hred]
      exact getD_append_self li.aliases (li.aliases.length + 1)
    have hfresh : ∀ q, Processed image.width n q → Fg image t3 q →
        cls li q ≠ li.aliases.length + 1 := by
      intro q hq hFq
      have hgq := H.fg_pos q hq hFq
      have h1 := H.resolve_le (gridAt li q) hgq.1 hgq.2
      unfold cls
      omega
    have hstep := partition_step_new (cls li)
      (cls (set_label
        { li with aliases := li.aliases ++ [li.aliases.length + 1] }
        (n % image.width) (n / image.width) (li.aliases.length + 1)))
      (li.aliases.length + 1)
      H.part hnp hnbr hfresh hcls hclsp
    intro p q hp hq hFp' hFq'
    exact (hstep p q ((hsucc p).mp hp) ((hsucc q).mp hq) hFp' hFq').trans
      (reachOn_congr fun u => ((hsucc u).symm))

/-- One full `label_pixel` step preserves the invariant. -/
theorem loopInv_step (image : IplImage) (t3 n : Nat)
    (li : koki_labelled_image_t)
    (Hsz : image.width * image.height < 32768)
    (hn : n < image.width * image.height)
    (H : LoopInv image t3 n li) :
    LoopInv image t3 (n+1)
      (label_pixel image li (n % image.width) (n / image.width) t3) := by
  by_cases himg : above_threshold image (n % image.width)
    (n / image.width) t3 = true
  · exact loopInv_step_bg image t3 n li hn H himg
  · have himg' : above_threshold image (n % image.width)
        (n / image.width) t3 = false := by
      cases hab : above_threshold image (n % image.width)
        (n / image.width) t3
      · rfl
      · exact absurd hab himg
    by_cases hN : get_connected_label li (n % image.width)
      (n / image.width) .N > 0
    · exact loopInv_step_N image t3 n li hn H himg' hN
    · have hN0 : get_connected_label li (n % image.width)
          (n / image.width) .N = 0 := by omega
      by_cases hNE : get_connected_label li (n % image.width)
        (n / image.width) .NE > 0
      · by_cases hNW : get_connected_label li (n % image.width)
          (n / image.width) .NW > 0
        · exact loopInv_step_mergeNW image t3 n li hn H himg' hN0 hNE hNW
        · have hNW0 : get_connected_label li (n % image.width)
              (n / image.width) .NW = 0 := by omega
          by_cases hW : get_connected_label li (n % image.width)
            (n / image.width) .W > 0
          · exact loopInv_step_mergeW image t3 n li hn H himg' hN0 hNE
              hNW0 hW
          · have hW0 : get_connected_label li (n % image.width)
                (n / image.width) .W = 0 := by omega
            exact loopInv_step_NEplain image t3 n li hn H himg' hN0 hNE
              hW0 hNW0
      · have hNE0 : get_connected_label li (n % image.width)
            (n / image.width) .NE = 0 := by omega
        by_cases hNW : get_connected_label li (n % image.width)
          (n / image.width) .NW > 0
        · exact loopInv_step_NW image t3 n li hn H himg' hN0 hNE0 hNW
        · have hNW0 : get_connected_label li (n % image.width)
              (n / image.width) .NW = 0 := by omega
          by_cases hW : get_connected_label li (n % image.width)
            (n / image.width) .W > 0
          · exact loopInv_step_W image t3 n li hn H himg' hN0 hNE0 hNW0 hW
          · have hW0 : get_connected_label li (n % image.width)
                (n / image.width) .W = 0 := by omega
            exact loopInv_step_new image t3 n li Hsz hn H himg' hN0 hNE0
              hNW0 hW0

/-- The invariant holds after any prefix of the labelling pass. -/
theorem loopInv_runUpto (image : IplImage) (t3 : Nat) (junk : Nat → Nat)
    (Hsz : image.width * image.height < 32768) (n : Nat)
    (hn : n ≤ image.width * image.height) :
    LoopInv image t3 n (runUpto image t3 junk n) := by
  induction n with
  | zero => exact loopInv_zero image t3 junk
  | succ m ih =>
    have hm : m < image.width * image.height := by omega
    have hrw : runUpto image t3 junk (m+1) =
        label_pixel image (runUpto image t3 junk m) (m % image.width)
          (m / image.width) t3 := by
      unfold runUpto
      rw [List.range_succ, List.foldl_append, List.foldl_cons,
        List.foldl_nil]
    rw [hrw]
    exact loopInv_step image t3 m (runUpto image t3 junk m) Hsz hm
      (ih (by omega))

/-! ### The nested row/column loops are the raster-order fold -/

theorem foldl_const {α β : Type} (l : List β) (a : α) :
    l.foldl (fun a _ => a) a = a := by
  induction l generalizing a with
  | nil => rfl
  | cons b l ih => rw [List.foldl_cons]; exact ih a

theorem foldl_grid {α : Type} (f : α → Nat → Nat → α) (w h : Nat) (a : α) :
    (List.range h).foldl
      (fun a row => (List.range w).foldl (fun a col => f a col row) a) a =
    (List.range (h * w)).foldl (fun a k => f a (k % w) (k / w)) a := by
  rcases Nat.eq_zero_or_pos w with hw0 | hw0
  · subst hw0
    rw [Nat.mul_zero]
    simp only [List.range_zero, List.foldl_nil]
    exact foldl_const _ _
  · induction h generalizing a with
    | zero => rw [Nat.zero_mul]; rfl
    | succ hh ih =>
      rw [List.range_succ, List.foldl_append, List.foldl_cons,
        List.foldl_nil, ih]
      have hmul : (hh + 1) * w = hh * w + w := by ring
      rw [hmul, List.range_add (hh * w) w, List.foldl_append,
        List.foldl_map]
      refine List.foldl_ext _ _ _ ?_
      intro b j hj
      have hjw : j < w := List.mem_range.mp hj
      have hmod : (hh * w + j) % w = j := by
        rw [Nat.mul_add_mod']
        exact Nat.mod_eq_of_lt hjw
      have hdiv : (hh * w + j) / w = hh := by
        rw [Nat.mul_comm hh w, Nat.mul_add_div hw0, Nat.div_eq_of_lt hjw,
          Nat.add_zero]
      rw [hmod, hdiv]

theorem runUpto_clips (image : IplImage) (t3 : Nat) (junk : Nat → Nat)
    (n : Nat) : (runUpto image t3 junk n).clips = [] := by
  induction n with
  | zero => rfl
  | succ m ih =>
    unfold runUpto
    rw [List.range_succ, List.foldl_append, List.foldl_cons, List.foldl_nil]
    rw [label_pixel_clips]
    exact ih

theorem core_label_eq (image : IplImage) (t3 : Nat) (junk : Nat → Nat) :
    (List.range image.height).foldl (fun li row =>
      (List.range image.width).foldl (fun li col =>
        label_pixel image li col row t3) li)
      (koki_labelled_image_new image.width image.height junk) =
    runUpto image t3 junk (image.height * image.width) := by
  unfold runUpto
  exact foldl_grid _ _ _ _

theorem core_stats_eq (image : IplImage) (li : koki_labelled_image_t)
    (cs : List koki_clip_region_t) :
    (List.range image.height).foldl (fun cs y =>
      (List.range image.width).foldl (fun cs x =>
        statsPixel li cs x y) cs) cs =
    statsUpto image li cs (image.height * image.width) := by
  unfold statsUpto
  exact foldl_grid _ _ _ _

theorem core_eq (image : IplImage) (t3 : Nat) (junk : Nat → Nat) :
    label_image_core image t3 junk =
      { runUpto image t3 junk (image.height * image.width) with
          clips := statsUpto image
            (runUpto image t3 junk (image.height * image.width))
            (init_clips (max_alias_of
              (runUpto image t3 junk (image.height * image.width)).aliases)
              (runUpto image t3 junk (image.height * image.width)).clips)
            (image.height * image.width) } := by
  simp only [label_image_core]
  rw [core_label_eq, core_stats_eq]

/-! ### Small list facts for the statistics pass -/

theorem getD_mem' (l : List Nat) (n d : Nat) (h : n < l.length) :
    l.getD n d ∈ l := by
  rw [List.getD_eq_getElem?_getD, List.getElem?_eq_getElem h]
  exact List.getElem_mem h

theorem foldl_max_ge_init (l : List Nat) (m : Nat) :
    m ≤ l.foldl (fun m a => if a > m then a else m) m := by
  induction l generalizing m with
  | nil => exact Nat.le_refl m
  | cons b l ih =>
    rw [List.foldl_cons]
    refine Nat.le_trans ?_ (ih _)
    split <;> omega

theorem le_max_alias_of (l : List Nat) (a : Nat) (h : a ∈ l) :
    a ≤ max_alias_of l := by
  unfold max_alias_of
  generalize hm : 0 = m
  clear hm
  induction l generalizing m with
  | nil => cases h
  | cons b l ih =>
    rw [List.foldl_cons]
    rcases List.mem_cons.mp h with rfl | hmem
    · refine Nat.le_trans ?_ (foldl_max_ge_init l _)
      split <;> omega
    · exact ih hmem _

theorem getD_set_ne (l : List koki_clip_region_t) (i j : Nat)
    (a d : koki_clip_region_t) (hne : i ≠ j) :
    (l.set i a).getD j d = l.getD j d := by
  rw [List.getD_eq_getElem?_getD, List.getD_eq_getElem?_getD,
    List.getElem?_set_ne hne]

theorem getD_set_self (l : List koki_clip_region_t) (i : Nat)
    (a d : koki_clip_region_t) (h : i < l.length) :
    (l.set i a).getD i d = a := by
  rw [List.getD_eq_getElem?_getD, List.getElem?_set_eq_of_lt a h]
  rfl

theorem init_clips_length (m : Nat) (cs : List koki_clip_region_t) :
    (init_clips m cs).length = cs.length + m := by
  unfold init_clips
  induction m with
  | zero => rfl
  | succ k ih =>
    rw [List.range_succ, List.foldl_append, List.foldl_cons, List.foldl_nil,
      List.length_append, ih]
    rfl

theorem init_clips_nil_eq (m : Nat) :
    init_clips m [] =
      List.replicate m { mass := 0, max := ⟨0, 0⟩, min := ⟨0xFFFF, 0xFFFF⟩ } := by
  unfold init_clips
  induction m with
  | zero => rfl
  | succ k ih =>
    rw [List.range_succ, List.foldl_append, List.foldl_cons, List.foldl_nil,
      ih, List.replicate_succ' k]

theorem getD_replicate' (n j : Nat) (a d : koki_clip_region_t) (h : j < n) :
    (List.replicate n a).getD j d = a := by
  rw [List.getD_eq_getElem?_getD,
    List.getElem?_eq_getElem (by simpa using h)]
  simp

/-! ### The statistics pass -/

/-- The pixels of region `c` among the first `n` scanned cells: in bounds,
stored label non-zero, resolving to canonical id `c`. -/
def regionPts (image : IplImage) (li : koki_labelled_image_t) (n c : Nat) :
    Finset (Nat × Nat) :=
  (Finset.range image.width ×ˢ Finset.range image.height).filter
    (fun p => Processed image.width n p ∧ gridAt li p ≠ 0 ∧ cls li p = c)

/-- Invariant of the statistics scan after `n` cells: each clip record holds
the pixel count and the exact bounding box of the region pixels seen so
far (sentinel extremes while the region is still empty). -/
structure StatsInv (image : IplImage) (li : koki_labelled_image_t) (n : Nat)
    (cs : List koki_clip_region_t) : Prop where
  len : cs.length = max_alias_of li.aliases
  mass : ∀ j, j < cs.length →
    (cs.getD j ⟨0, ⟨0, 0⟩, ⟨0, 0⟩⟩).mass = (regionPts image li n (j+1)).card
  bounds : ∀ j, j < cs.length → ∀ p ∈ regionPts image li n (j+1),
    (cs.getD j ⟨0, ⟨0, 0⟩, ⟨0, 0⟩⟩).min.x ≤ p.1 ∧
      p.1 ≤ (cs.getD j ⟨0, ⟨0, 0⟩, ⟨0, 0⟩⟩).max.x ∧
      (cs.getD j ⟨0, ⟨0, 0⟩, ⟨0, 0⟩⟩).min.y ≤ p.2 ∧
      p.2 ≤ (cs.getD j ⟨0, ⟨0, 0⟩, ⟨0, 0⟩⟩).max.y
  attain : ∀ j, j < cs.length → (regionPts image li n (j+1)).Nonempty →
    (∃ p ∈ regionPts image li n (j+1),
      p.1 = (cs.getD j ⟨0, ⟨0, 0⟩, ⟨0, 0⟩⟩).min.x) ∧
    (∃ p ∈ regionPts image li n (j+1),
      p.2 = (cs.getD j ⟨0, ⟨0, 0⟩, ⟨0, 0⟩⟩).min.y) ∧
    (∃ p ∈ regionPts image li n (j+1),
      p.1 = (cs.getD j ⟨0, ⟨0, 0⟩, ⟨0, 0⟩⟩).max.x) ∧
    (∃ p ∈ regionPts image li n (j+1),
      p.2 = (cs.getD j ⟨0, ⟨0, 0⟩, ⟨0, 0⟩⟩).max.y)
  hempty : ∀ j, j < cs.length → regionPts image li n (j+1) = ∅ →
    cs.getD j ⟨0, ⟨0, 0⟩, ⟨0, 0⟩⟩ =
      { mass := 0, max := ⟨0, 0⟩, min := ⟨0xFFFF, 0xFFFF⟩ }

theorem statsPixel_zero_eq (li : koki_labelled_image_t)
    (cs : List koki_clip_region_t) (x y : Nat)
    (hlab : KOKI_LABELLED_IMAGE_LABEL li x y = 0) :
    statsPixel li cs x y = cs := by
  simp only [statsPixel]
  rw [if_pos hlab]

theorem statsPixel_pos_eq (li : koki_labelled_image_t)
    (cs : List koki_clip_region_t) (x y c0 : Nat)
    (clip : koki_clip_region_t)
    (hlab : ¬ KOKI_LABELLED_IMAGE_LABEL li x y = 0)
    (hc0 : c0 = li.aliases.getD (KOKI_LABELLED_IMAGE_LABEL li x y - 1) 0)
    (hclip : clip = cs.getD (c0 - 1) ⟨0, ⟨0, 0⟩, ⟨0, 0⟩⟩) :
    statsPixel li cs x y = cs.set (c0 - 1)
      { mass := clip.mass + 1
        max := { x := if x > clip.max.x then x else clip.max.x
                 y := if y > clip.max.y then y else clip.max.y }
        min := { x := if x < clip.min.x then x else clip.min.x
                 y := if y < clip.min.y then y else clip.min.y } } := by
  subst hc0
  subst hclip
  simp only [statsPixel]
  rw [if_neg hlab]

theorem processed_all (w h : Nat) (p : Nat × Nat) (hp1 : p.1 < w)
    (hp2 : p.2 < h) : Processed w (h * w) p := by
  refine ⟨hp1, ?_⟩
  have h1 : (p.2 + 1) * w = p.2 * w + w := by ring
  have h2 : (p.2 + 1) * w ≤ h * w := Nat.mul_le_mul_right w (by omega)
  omega

theorem statsInv_zero (image : IplImage) (li : koki_labelled_image_t) :
    StatsInv image li 0 (init_clips (max_alias_of li.aliases) []) := by
  have hPts : ∀ c, regionPts image li 0 c = ∅ := by
    intro c
    ext p
    simp only [regionPts, Finset.mem_filter, Finset.not_mem_empty,
      iff_false, not_and]
    rintro _ ⟨_, h2⟩
    omega
  have hlen : (init_clips (max_alias_of li.aliases) []).length =
      max_alias_of li.aliases := by
    rw [init_clips_length]
    simp
  have hget : ∀ j, j < max_alias_of li.aliases →
      (init_clips (max_alias_of li.aliases) []).getD j
          ⟨0, ⟨0, 0⟩, ⟨0, 0⟩⟩ =
        { mass := 0, max := ⟨0, 0⟩, min := ⟨0xFFFF, 0xFFFF⟩ } := by
    intro j hj
    rw [init_clips_nil_eq, getD_replicate' _ _ _ _ hj]
  refine ⟨hlen, ?_, ?_, ?_, ?_⟩
  · intro j hj
    rw [hlen] at hj
    rw [hget j hj, hPts]
    rfl
  · intro j hj p hp
    rw [hPts] at hp
    exact absurd hp (Finset.not_mem_empty p)
  · intro j hj hne
    rw [hPts] at hne
    exact absurd hne (by simp)
  · intro j hj _
    rw [hlen] at hj
    exact hget j hj

theorem statsInv_step (image : IplImage) (t3 N : Nat)
    (li : koki_labelled_image_t) (HF : LoopInv image t3 N li)
    (hNall : ∀ p : Nat × Nat, p.1 < image.width → p.2 < image.height →
      Processed image.width N p)
    (Hsz : image.width * image.height < 32768)
    (k : Nat) (hk : k < image.width * image.height)
    (cs : List koki_clip_region_t) (S : StatsInv image li k cs) :
    StatsInv image li (k+1)
      (statsPixel li cs (k % image.width) (k / image.width)) := by
  obtain ⟨hw0, hx, hy, hnxy⟩ := step_basics image k hk
  have hnp : ¬ Processed image.width k (k % image.width, k / image.width) :=
    not_processed_self _ _ hw0 hx
  have hsucc : ∀ p, Processed image.width (k+1) p ↔
      (Processed image.width k p ∨ p = (k % image.width, k / image.width)) := by
    intro p
    rw [processed_succ image.width k hw0 p]
    constructor
    · rintro (h | ⟨_, h⟩)
      · exact Or.inl h
      · exact Or.inr h
    · rintro (h | rfl)
      · exact Or.inl h
      · exact Or.inr ⟨hx, rfl⟩
  have hPtsIns : ∀ c, gridAt li (k % image.width, k / image.width) ≠ 0 →
      cls li (k % image.width, k / image.width) = c →
      regionPts image li (k+1) c =
        insert (k % image.width, k / image.width)
          (regionPts image li k c) := by
    intro c hg hc
    ext p
    simp only [regionPts, Finset.mem_filter, Finset.mem_insert,
      Finset.mem_product, Finset.mem_range]
    constructor
    · rintro ⟨hmem, hproc, hg', hc'⟩
      rcases (hsucc p).mp hproc with hold | rfl
      · exact Or.inr ⟨hmem, hold, hg', hc'⟩
      · exact Or.inl rfl
    · rintro (rfl | ⟨hmem, hold, hg', hc'⟩)
      · exact ⟨⟨hx, hy⟩, (hsucc _).mpr (Or.inr rfl), hg, hc⟩
      · exact ⟨hmem, (hsucc p).mpr (Or.inl hold), hg', hc'⟩
  have hPtsSame : ∀ c,
      (gridAt li (k % image.width, k / image.width) = 0 ∨
        cls li (k % image.width, k / image.width) ≠ c) →
      regionPts image li (k+1) c = regionPts image li k c := by
    intro c hcond
    ext p
    simp only [regionPts, Finset.mem_filter]
    constructor
    · rintro ⟨hmem, hproc, hg', hc'⟩
      rcases (hsucc p).mp hproc with hold | rfl
      · exact ⟨hmem, hold, hg', hc'⟩
      · rcases hcond with h0 | h0
        · exact absurd h0 hg'
        · exact absurd hc' h0
    · rintro ⟨hmem, hold, hg', hc'⟩
      exact ⟨hmem, (hsucc p).mpr (Or.inl hold), hg', hc'⟩
  by_cases hlab : KOKI_LABELLED_IMAGE_LABEL li (k % image.width)
    (k / image.width) = 0
  · rw [statsPixel_zero_eq li cs _ _ hlab]
    have hg0 : gridAt li (k % image.width, k / image.width) = 0 := hlab
    refine ⟨S.len, ?_, ?_, ?_, ?_⟩
    · intro j hj
      rw [hPtsSame (j+1) (Or.inl hg0)]
      exact S.mass j hj
    · intro j hj p hp
      rw [hPtsSame (j+1) (Or.inl hg0)] at hp
      exact S.bounds j hj p hp
    · intro j hj hne
      rw [hPtsSame (j+1) (Or.inl hg0)] at hne ⊢
      exact S.attain j hj hne
    · intro j hj he
      rw [hPtsSame (j+1) (Or.inl hg0)] at he
      exact S.hempty j hj he
  · have hproc := hNall (k % image.width, k / image.width) hx hy
    have hfgp := HF.fg_of_pos _ hproc hlab
    have hgb := HF.fg_pos _ hproc hfgp
    have hc0pos : 1 ≤ cls li (k % image.width, k / image.width) :=
      HF.resolve_ge _ hgb.1 hgb.2
    have hc0le : cls li (k % image.width, k / image.width) ≤
        max_alias_of li.aliases := by
      exact le_max_alias_of li.aliases _
        (getD_mem' li.aliases (gridAt li (k % image.width,
          k / image.width) - 1) 0 (by omega))
    have hc0idx : cls li (k % image.width, k / image.width) - 1 <
        cs.length := by
      rw [S.len]
      omega
    have hc0eq : cls li (k % image.width, k / image.width) - 1 + 1 =
        cls li (k % image.width, k / image.width) := by omega
    have hxFFFF : k % image.width < 0xFFFF := by omega
    have hyFFFF : k / image.width < 0xFFFF := by
      have := Nat.div_le_self k image.width
      omega
    have hnotmem : (k % image.width, k / image.width) ∉
        regionPts image li k (cls li (k % image.width, k / image.width)) := by
      intro hmem
      simp only [regionPts, Finset.mem_filter] at hmem
      exact hnp hmem.2.1
    rw [statsPixel_pos_eq li cs (k % image.width) (k / image.width)
      (cls li (k % image.width, k / image.width))
      (cs.getD (cls li (k % image.width, k / image.width) - 1)
        ⟨0, ⟨0, 0⟩, ⟨0, 0⟩⟩) hlab rfl rfl]
    refine ⟨?_, ?_, ?_, ?_, ?_⟩
    · rw [List.length_set]
      exact S.len
    · intro j hj
      rw [List.length_set] at hj
      by_cases hje : j = cls li (k % image.width, k / image.width) - 1
      · subst hje
        rw [getD_set_self _ _ _ _ hc0idx, hc0eq, hPtsIns _ hlab rfl,
          Finset.card_insert_of_not_mem hnotmem]
        have hm := S.mass _ hj
        rw [hc0eq] at hm
        simp only
        omega
      · rw [getD_set_ne _ _ _ _ _ (fun he => hje he.symm),
          hPtsSame (j+1) (Or.inr (fun hc => hje (by omega)))]
        exact S.mass j hj
    · intro j hj p hp
      rw [List.length_set] at hj
      by_cases hje : j = cls li (k % image.width, k / image.width) - 1
      · subst hje
        rw [getD_set_self _ _ _ _ hc0idx]
        rw [hc0eq, hPtsIns _ hlab rfl] at hp
        have hold := S.bounds _ hj
        rcases Finset.mem_insert.mp hp with rfl | hp'
        · simp only
          refine ⟨?_, ?_, ?_, ?_⟩ <;> split <;> omega
        · have hb := hold p (by rw [hc0eq]; exact hp')
          simp only at hb ⊢
          refine ⟨?_, ?_, ?_, ?_⟩ <;> split <;> omega
      · rw [getD_set_ne _ _ _ _ _ (fun he => hje he.symm)]
        rw [hPtsSame (j+1) (Or.inr (fun hc => hje (by omega)))] at hp
        exact S.bounds j hj p hp
    · intro j hj hne
      rw [List.length_set] at hj
      by_cases hje : j = cls li (k % image.width, k / image.width) - 1
      · subst hje
        rw [getD_set_self _ _ _ _ hc0idx]
        rw [hc0eq, hPtsIns _ hlab rfl]
        by_cases hPe : regionPts image li k
            (cls li (k % image.width, k / image.width)) = ∅
        · have hclip := S.hempty _ hj (by rw [hc0eq]; exact hPe)
          rw [hclip]
          simp only
          refine ⟨⟨(k % image.width, k / image.width),
              Finset.mem_insert_self _ _, ?_⟩,
            ⟨(k % image.width, k / image.width),
              Finset.mem_insert_self _ _, ?_⟩,
            ⟨(k % image.width, k / image.width),
              Finset.mem_insert_self _ _, ?_⟩,
            ⟨(k % image.width, k / image.width),
              Finset.mem_insert_self _ _, ?_⟩⟩
          · show k % image.width = if k % image.width < 0xFFFF
              then k % image.width else 0xFFFF
            rw [if_pos hxFFFF]
          · show k / image.width = if k / image.width < 0xFFFF
              then k / image.width else 0xFFFF
            rw [if_pos hyFFFF]
          · show k % image.width = if k % image.width > 0
              then k % image.width else 0
            split <;> omega
          · show k / image.width = if k / image.width > 0
              then k / image.width else 0
            rcases Nat.eq_zero_or_pos (k / image.width) with h0 | h0
            · simp [h0]
            · rw [if_pos h0]
        · obtain ⟨⟨p1, hm1, he1⟩, ⟨p2, hm2, he2⟩, ⟨p3, hm3, he3⟩,
            ⟨p4, hm4, he4⟩⟩ := S.attain _ hj
            (by rw [hc0eq]; exact Finset.nonempty_iff_ne_empty.mpr hPe)
          rw [hc0eq] at hm1 hm2 hm3 hm4
          simp only
          refine ⟨?_, ?_, ?_, ?_⟩
          · by_cases hcmp : k % image.width <
              (cs.getD (cls li (k % image.width, k / image.width) - 1)
                ⟨0, ⟨0, 0⟩, ⟨0, 0⟩⟩).min.x
            · exact ⟨(k % image.width, k / image.width),
                Finset.mem_insert_self _ _, by simp only; rw [if_pos hcmp]⟩
            · exact ⟨p1, Finset.mem_insert_of_mem hm1,
                by rw [if_neg hcmp]; exact he1⟩
          · by_cases hcmp : k / image.width <
              (cs.getD (cls li (k % image.width, k / image.width) - 1)
                ⟨0, ⟨0, 0⟩, ⟨0, 0⟩⟩).min.y
            · exact ⟨(k % image.width, k / image.width),
                Finset.mem_insert_self _ _, by simp only; rw [if_pos hcmp]⟩
            · exact ⟨p2, Finset.mem_insert_of_mem hm2,
                by rw [if_neg hcmp]; exact he2⟩
          · by_cases hcmp : k % image.width >
              (cs.getD (cls li (k % image.width, k / image.width) - 1)
                ⟨0, ⟨0, 0⟩, ⟨0, 0⟩⟩).max.x
            · exact ⟨(k % image.width, k / image.width),
                Finset.mem_insert_self _ _, by simp only; rw [if_pos hcmp]⟩
            · exact ⟨p3, Finset.mem_insert_of_mem hm3,
                by rw [if_neg hcmp]; exact he3⟩
          · by_cases hcmp : k / image.width >
              (cs.getD (cls li (k % image.width, k / image.width) - 1)
                ⟨0, ⟨0, 0⟩, ⟨0, 0⟩⟩).max.y
            · exact ⟨(k % image.width, k / image.width),
                Finset.mem_insert_self _ _, by simp only; rw [if_pos hcmp]⟩
            · exact ⟨p4, Finset.mem_insert_of_mem hm4,
                by rw [if_neg hcmp]; exact he4⟩
      · rw [getD_set_ne _ _ _ _ _ (fun he => hje he.symm)]
        rw [hPtsSame (j+1) (Or.inr (fun hc => hje (by omega)))] at hne ⊢
        exact S.attain j hj hne
    · intro j hj he
      rw [List.length_set] at hj
      by_cases hje : j = cls li (k % image.width, k / image.width) - 1
      · subst hje
        rw [hc0eq, hPtsIns _ hlab rfl] at he
        exact absurd he (Finset.insert_ne_empty _ _)
      · rw [getD_set_ne _ _ _ _ _ (fun he' => hje he'.symm)]
        rw [hPtsSame (j+1) (Or.inr (fun hc => hje (by omega)))] at he
        exact S.hempty j hj he

theorem statsInv_upto (image : IplImage) (t3 N : Nat)
    (li : koki_labelled_image_t) (HF : LoopInv image t3 N li)
    (hNall : ∀ p : Nat × Nat, p.1 < image.width → p.2 < image.height →
      Processed image.width N p)
    (Hsz : image.width * image.height < 32768)
    (n : Nat) (hn : n ≤ image.width * image.height) :
    StatsInv image li n
      (statsUpto image li (init_clips (max_alias_of li.aliases) []) n) := by
  induction n with
  | zero => exact statsInv_zero image li
  | succ m ih =>
    have hstep := statsInv_step image t3 N li HF hNall Hsz m (by omega) _
      (ih (by omega))
    unfold statsUpto at hstep ⊢
    rw [List.range_succ, List.foldl_append, List.foldl_cons, List.foldl_nil]
    exact hstep

/-! ### Bridging the top-level entry point to the two passes -/

theorem final_eval (image : IplImage) (threshold : ℚ) (t3 : Nat)
    (junk : Nat → Nat) (ht3 : t3 = Int.toNat ⌊255 * threshold * 3⌋) :
    koki_label_image image threshold junk = label_image_core image t3 junk := by
  rw [ht3]
  rfl

theorem koki_eval_zero (image : IplImage) (junk : Nat → Nat) :
    koki_label_image image 0 junk = label_image_core image 0 junk := by
  unfold koki_label_image
  norm_num

theorem final_aliases (image : IplImage) (t3 : Nat) (junk : Nat → Nat) :
    (label_image_core image t3 junk).aliases =
      (runUpto image t3 junk (image.height * image.width)).aliases := by
  rw [core_eq]

theorem final_gridAt (image : IplImage) (t3 : Nat) (junk : Nat → Nat)
    (p : Nat × Nat) :
    gridAt (label_image_core image t3 junk) p =
      gridAt (runUpto image t3 junk (image.height * image.width)) p := by
  rw [core_eq]
  rfl

theorem final_cls (image : IplImage) (t3 : Nat) (junk : Nat → Nat)
    (p : Nat × Nat) :
    cls (label_image_core image t3 junk) p =
      cls (runUpto image t3 junk (image.height * image.width)) p := by
  rw [core_eq]
  rfl

theorem final_clips (image : IplImage) (t3 : Nat) (junk : Nat → Nat) :
    (label_image_core image t3 junk).clips =
      statsUpto image (runUpto image t3 junk (image.height * image.width))
        (init_clips (max_alias_of
          (runUpto image t3 junk (image.height * image.width)).aliases) [])
        (image.height * image.width) := by
  rw [core_eq, runUpto_clips]

theorem regionPts_final (image : IplImage) (t3 : Nat) (junk : Nat → Nat)
    (n c : Nat) :
    regionPts image (label_image_core image t3 junk) n c =
      regionPts image (runUpto image t3 junk (image.height * image.width))
        n c := by
  rw [core_eq]
  rfl

theorem hw_comm (image : IplImage) :
    image.height * image.width ≤ image.width * image.height :=
  Nat.le_of_eq (Nat.mul_comm _ _)

theorem loopInv_full (image : IplImage) (t3 : Nat) (junk : Nat → Nat)
    (Hsz : image.width * image.height < 32768) :
    LoopInv image t3 (image.height * image.width)
      (runUpto image t3 junk (image.height * image.width)) :=
  loopInv_runUpto image t3 junk Hsz _ (hw_comm image)

theorem processed_full (image : IplImage) (p : Nat × Nat)
    (h1 : p.1 < image.width) (h2 : p.2 < image.height) :
    Processed image.width (image.height * image.width) p :=
  processed_all _ _ p h1 h2

theorem statsInv_full (image : IplImage) (t3 : Nat) (junk : Nat → Nat)
    (Hsz : image.width * image.height < 32768) :
    StatsInv image (runUpto image t3 junk (image.height * image.width))
      (image.height * image.width)
      (statsUpto image (runUpto image t3 junk (image.height * image.width))
        (init_clips (max_alias_of
          (runUpto image t3 junk (image.height * image.width)).aliases) [])
        (image.height * image.width)) :=
  statsInv_upto image t3 (image.height * image.width) _
    (loopInv_full image t3 junk Hsz)
    (fun p h1 h2 => processed_full image p h1 h2) Hsz _ (hw_comm image)

theorem reach_full_iff (image : IplImage) (t3 : Nat) (p q : Nat × Nat) :
    ReachOn (Fg image t3) (Processed image.width
        (image.height * image.width)) p q ↔
      Conn8 image t3 p q := by
  constructor
  · exact Relation.ReflTransGen.mono
      (fun a b hab => ⟨hab.1, hab.2.1, hab.2.2.1, trivial, trivial⟩)
  · refine Relation.ReflTransGen.mono (fun a b hab => ?_)
    obtain ⟨hadj, hFa, hFb, -, -⟩ := hab
    exact ⟨hadj, hFa, hFb, processed_full image a hFa.1 hFa.2.1,
      processed_full image b hFb.1 hFb.2.1⟩

/-! ### The claims -/

/-- C1: after `koki_label_image` completes, two foreground pixels hold the
same final canonical id (stored grid value resolved through the alias
table) if and only if they are 8-connected through foreground pixels. -/
theorem C1_same_id_iff_connected (image : IplImage) (threshold : ℚ)
    (t3 : Nat) (junk : Nat → Nat)
    (ht3 : t3 = Int.toNat ⌊255 * threshold * 3⌋)
    (Hsz : image.width * image.height < 32768)
    (p q : Nat × Nat) (hp : Fg image t3 p) (hq : Fg image t3 q) :
    (cls (koki_label_image image threshold junk) p =
        cls (koki_label_image image threshold junk) q ↔
      Conn8 image t3 p q) := by
  rw [final_eval image threshold t3 junk ht3, final_cls, final_cls]
  have H := loopInv_full image t3 junk Hsz
  rw [H.part p q (processed_full image p hp.1 hp.2.1)
    (processed_full image q hq.1 hq.2.1) hp hq]
  exact reach_full_iff image t3 p q

theorem C1_same_id_iff_connected_witness :
    (0 : Nat) = Int.toNat ⌊255 * (0 : ℚ) * 3⌋ ∧
    imgA.width * imgA.height < 32768 ∧
    Fg imgA 0 (0, 0) ∧ Fg imgA 0 (1, 1) ∧
    (cls (koki_label_image imgA 0 junk0) (0, 0) =
        cls (koki_label_image imgA 0 junk0) (1, 1) ↔
      Conn8 imgA 0 (0, 0) (1, 1)) :=
  ⟨by simp, by decide, by decide, by decide,
    C1_same_id_iff_connected imgA 0 0 junk0 (by simp) (by decide)
      (0, 0) (1, 1) (by decide) (by decide)⟩

/-- C2: the alias table is flat at every point of the labelling pass and in
the final result: every allocated slot holds a value that resolves to
itself (`aliases[aliases[i-1]-1] = aliases[i-1]`). -/
theorem C2_alias_table_flat (image : IplImage) (threshold : ℚ) (t3 : Nat)
    (junk : Nat → Nat) (ht3 : t3 = Int.toNat ⌊255 * threshold * 3⌋)
    (Hsz : image.width * image.height < 32768) :
    (∀ n, n ≤ image.width * image.height → ∀ i,
      i < (runUpto image t3 junk n).aliases.length →
      (runUpto image t3 junk n).aliases.getD
          ((runUpto image t3 junk n).aliases.getD i 0 - 1) 0 =
        (runUpto image t3 junk n).aliases.getD i 0) ∧
    (∀ i, i < (koki_label_image image threshold junk).aliases.length →
      (koki_label_image image threshold junk).aliases.getD
          ((koki_label_image image threshold junk).aliases.getD i 0 - 1) 0 =
        (koki_label_image image threshold junk).aliases.getD i 0) := by
  constructor
  · intro n hn
    exact (loopInv_runUpto image t3 junk Hsz n hn).flat
  · rw [final_eval image threshold t3 junk ht3, final_aliases]
    exact (loopInv_full image t3 junk Hsz).flat

theorem C2_alias_table_flat_witness :
    (0 : Nat) = Int.toNat ⌊255 * (0 : ℚ) * 3⌋ ∧
    imgA.width * imgA.height < 32768 ∧
    ((∀ n, n ≤ imgA.width * imgA.height → ∀ i,
      i < (runUpto imgA 0 junk0 n).aliases.length →
      (runUpto imgA 0 junk0 n).aliases.getD
          ((runUpto imgA 0 junk0 n).aliases.getD i 0 - 1) 0 =
        (runUpto imgA 0 junk0 n).aliases.getD i 0) ∧
    (∀ i, i < (koki_label_image imgA 0 junk0).aliases.length →
      (koki_label_image imgA 0 junk0).aliases.getD
          ((koki_label_image imgA 0 junk0).aliases.getD i 0 - 1) 0 =
        (koki_label_image imgA 0 junk0).aliases.getD i 0)) :=
  ⟨by simp, by decide, C2_alias_table_flat imgA 0 0 junk0 (by simp) (by decide)⟩

/-- C3: a pixel is classified foreground exactly when its channel sum is at
most `threshold × 3 × 255` (threshold a nonnegative rational, the scaled
bound computed once as `(255 * threshold) * 3` truncated to an integer). -/
theorem C3_classifier_iff (image : IplImage) (threshold : ℚ) (t3 : Nat)
    (ht3 : t3 = Int.toNat ⌊255 * threshold * 3⌋) (h0 : 0 ≤ threshold)
    (x y : Nat) :
    (above_threshold image x y t3 = false ↔
      ((KOKI_IPLIMAGE_ELEM image x y 0 + KOKI_IPLIMAGE_ELEM image x y 1 +
        KOKI_IPLIMAGE_ELEM image x y 2 : Nat) : ℚ) ≤
        threshold * 3 * 255) := by
  subst ht3
  unfold above_threshold
  rw [decide_eq_false_iff_not, Nat.not_lt]
  have hc : (0 : ℚ) ≤ 255 * threshold * 3 := by positivity
  have hfl : (0 : ℤ) ≤ ⌊255 * threshold * 3⌋ := Int.floor_nonneg.mpr hc
  rw [Int.le_toNat hfl, Int.le_floor]
  push_cast
  constructor <;> intro h <;> linarith

theorem C3_classifier_iff_witness :
    (0 : Nat) = Int.toNat ⌊255 * (0 : ℚ) * 3⌋ ∧
    (0 : ℚ) ≤ 0 ∧
    (above_threshold imgA 0 0 0 = false ↔
      ((KOKI_IPLIMAGE_ELEM imgA 0 0 0 + KOKI_IPLIMAGE_ELEM imgA 0 0 1 +
        KOKI_IPLIMAGE_ELEM imgA 0 0 2 : Nat) : ℚ) ≤ 0 * 3 * 255) :=
  ⟨by simp, le_refl 0, C3_classifier_iff imgA 0 0 (by simp) (le_refl 0) 0 0⟩

/-- C4 is refuted on `imgA`: two labels are allocated during the run (the
alias table has two slots, so the highest id ever allocated is 2), but the
statistics pass allocates only `max_alias = 1` record, because it takes the
maximum over the *current* alias values, in which label 2 was merged into
1 — not the highest id ever allocated. -/
theorem C4_counterexample :
    (koki_label_image imgA 0 junk0).aliases.length = 2 ∧
    (koki_label_image imgA 0 junk0).clips.length = 1 := by
  rw [koki_eval_zero]
  decide

/-- C4 (amended): the statistics pass allocates exactly `max_alias`
records, where `max_alias` is the largest value currently stored in the
alias table after the labelling pass (canonical ids merged away entirely
are *not* counted); within that range, an id with no remaining pixel keeps
its initialised record with `mass = 0`. -/
theorem C4_stats_records (image : IplImage) (threshold : ℚ) (t3 : Nat)
    (junk : Nat → Nat) (ht3 : t3 = Int.toNat ⌊255 * threshold * 3⌋)
    (Hsz : image.width * image.height < 32768) :
    (koki_label_image image threshold junk).clips.length =
      max_alias_of (koki_label_image image threshold junk).aliases ∧
    (∀ j, j < (koki_label_image image threshold junk).clips.length →
      regionPts image (koki_label_image image threshold junk)
          (image.height * image.width) (j+1) = ∅ →
      (koki_label_image image threshold junk).clips.getD j
          ⟨0, ⟨0, 0⟩, ⟨0, 0⟩⟩ =
        { mass := 0, max := ⟨0, 0⟩, min := ⟨0xFFFF, 0xFFFF⟩ }) := by
  rw [final_eval image threshold t3 junk ht3]
  have S := statsInv_full image t3 junk Hsz
  constructor
  · rw [final_clips, final_aliases]
    exact S.len
  · intro j hj he
    rw [final_clips] at hj ⊢
    rw [regionPts_final] at he
    exact S.hempty j hj he

theorem C4_stats_records_witness :
    (0 : Nat) = Int.toNat ⌊255 * (0 : ℚ) * 3⌋ ∧
    imgA.width * imgA.height < 32768 ∧
    ((koki_label_image imgA 0 junk0).clips.length =
      max_alias_of (koki_label_image imgA 0 junk0).aliases ∧
    (∀ j, j < (koki_label_image imgA 0 junk0).clips.length →
      regionPts imgA (koki_label_image imgA 0 junk0)
          (imgA.height * imgA.width) (j+1) = ∅ →
      (koki_label_image imgA 0 junk0).clips.getD j
          ⟨0, ⟨0, 0⟩, ⟨0, 0⟩⟩ =
        { mass := 0, max := ⟨0, 0⟩, min := ⟨0xFFFF, 0xFFFF⟩ })) :=
  ⟨by simp, by decide, C4_stats_records imgA 0 0 junk0 (by simp) (by decide)⟩

/-- C5 is refuted on `imgB`: the single region (mass 2, pixels `(1,0)` and
`(0,1)`) has bounding-box minimum corner `(0,0)`, and no pixel of the
region sits at that corner — the corner point itself is not attained, only
each coordinate separately. -/
theorem C5_counterexample :
    (koki_label_image imgB 0 junk0).clips.length = 1 ∧
    0 < ((koki_label_image imgB 0 junk0).clips.getD 0
      ⟨0, ⟨0, 0⟩, ⟨0, 0⟩⟩).mass ∧
    (∀ x, x < 2 → ∀ y, y < 2 →
      ¬(gridAt (koki_label_image imgB 0 junk0) (x, y) ≠ 0 ∧
        x = ((koki_label_image imgB 0 junk0).clips.getD 0
          ⟨0, ⟨0, 0⟩, ⟨0, 0⟩⟩).min.x ∧
        y = ((koki_label_image imgB 0 junk0).clips.getD 0
          ⟨0, ⟨0, 0⟩, ⟨0, 0⟩⟩).min.y)) := by
  rw [koki_eval_zero]
  decide

/-- C5 (amended): for every statistics record with positive mass, every
pixel of the region lies inside the inclusive box `[min, max]`, and each
box *coordinate* (`min.x`, `min.y`, `max.x`, `max.y`) is attained by some
pixel of the region — but not necessarily the two corner *points*. -/
theorem C5_bounding_box (image : IplImage) (threshold : ℚ) (t3 : Nat)
    (junk : Nat → Nat) (ht3 : t3 = Int.toNat ⌊255 * threshold * 3⌋)
    (Hsz : image.width * image.height < 32768) (j : Nat)
    (hj : j < (koki_label_image image threshold junk).clips.length)
    (hmass : 0 < ((koki_label_image image threshold junk).clips.getD j
      ⟨0, ⟨0, 0⟩, ⟨0, 0⟩⟩).mass) :
    (∀ p ∈ regionPts image (koki_label_image image threshold junk)
        (image.height * image.width) (j+1),
      ((koki_label_image image threshold junk).clips.getD j
          ⟨0, ⟨0, 0⟩, ⟨0, 0⟩⟩).min.x ≤ p.1 ∧
        p.1 ≤ ((koki_label_image image threshold junk).clips.getD j
          ⟨0, ⟨0, 0⟩, ⟨0, 0⟩⟩).max.x ∧
        ((koki_label_image image threshold junk).clips.getD j
          ⟨0, ⟨0, 0⟩, ⟨0, 0⟩⟩).min.y ≤ p.2 ∧
        p.2 ≤ ((koki_label_image image threshold junk).clips.getD j
          ⟨0, ⟨0, 0⟩, ⟨0, 0⟩⟩).max.y) ∧
    (∃ p ∈ regionPts image (koki_label_image image threshold junk)
        (image.height * image.width) (j+1),
      p.1 = ((koki_label_image image threshold junk).clips.getD j
        ⟨0, ⟨0, 0⟩, ⟨0, 0⟩⟩).min.x) ∧
    (∃ p ∈ regionPts image (koki_label_image image threshold junk)
        (image.height * image.width) (j+1),
      p.2 = ((koki_label_image image threshold junk).clips.getD j
        ⟨0, ⟨0, 0⟩, ⟨0, 0⟩⟩).min.y) ∧
    (∃ p ∈ regionPts image (koki_label_image image threshold junk)
        (image.height * image.width) (j+1),
      p.1 = ((koki_label_image image threshold junk).clips.getD j
        ⟨0, ⟨0, 0⟩, ⟨0, 0⟩⟩).max.x) ∧
    (∃ p ∈ regionPts image (koki_label_image image threshold junk)
        (image.height * image.width) (j+1),
      p.2 = ((koki_label_image image threshold junk).clips.getD j
        ⟨0, ⟨0, 0⟩, ⟨0, 0⟩⟩).max.y) := by
  rw [final_eval image threshold t3 junk ht3] at hj hmass ⊢
  rw [regionPts_final]
  rw [final_clips] at hj hmass ⊢
  have S := statsInv_full image t3 junk Hsz
  have hne : (regionPts image
      (runUpto image t3 junk (image.height * image.width))
      (image.height * image.width) (j+1)).Nonempty := by
    rw [S.mass j hj] at hmass
    exact Finset.card_pos.mp hmass
  obtain ⟨h1, h2, h3, h4⟩ := S.attain j hj hne
  exact ⟨S.bounds j hj, h1, h2, h3, h4⟩

theorem C5_bounding_box_witness :
    (0 : Nat) = Int.toNat ⌊255 * (0 : ℚ) * 3⌋ ∧
    imgB.width * imgB.height < 32768 ∧
    0 < (koki_label_image imgB 0 junk0).clips.length ∧
    0 < ((koki_label_image imgB 0 junk0).clips.getD 0
      ⟨0, ⟨0, 0⟩, ⟨0, 0⟩⟩).mass ∧
    ((∀ p ∈ regionPts imgB (koki_label_image imgB 0 junk0)
        (imgB.height * imgB.width) (0+1),
      ((koki_label_image imgB 0 junk0).clips.getD 0
          ⟨0, ⟨0, 0⟩, ⟨0, 0⟩⟩).min.x ≤ p.1 ∧
        p.1 ≤ ((koki_label_image imgB 0 junk0).clips.getD 0
          ⟨0, ⟨0, 0⟩, ⟨0, 0⟩⟩).max.x ∧
        ((koki_label_image imgB 0 junk0).clips.getD 0
          ⟨0, ⟨0, 0⟩, ⟨0, 0⟩⟩).min.y ≤ p.2 ∧
        p.2 ≤ ((koki_label_image imgB 0 junk0).clips.getD 0
          ⟨0, ⟨0, 0⟩, ⟨0, 0⟩⟩).max.y) ∧
    (∃ p ∈ regionPts imgB (koki_label_image imgB 0 junk0)
        (imgB.height * imgB.width) (0+1),
      p.1 = ((koki_label_image imgB 0 junk0).clips.getD 0
        ⟨0, ⟨0, 0⟩, ⟨0, 0⟩⟩).min.x) ∧
    (∃ p ∈ regionPts imgB (koki_label_image imgB 0 junk0)
        (imgB.height * imgB.width) (0+1),
      p.2 = ((koki_label_image imgB 0 junk0).clips.getD 0
        ⟨0, ⟨0, 0⟩, ⟨0, 0⟩⟩).min.y) ∧
    (∃ p ∈ regionPts imgB (koki_label_image imgB 0 junk0)
        (imgB.height * imgB.width) (0+1),
      p.1 = ((koki_label_image imgB 0 junk0).clips.getD 0
        ⟨0, ⟨0, 0⟩, ⟨0, 0⟩⟩).max.x) ∧
    (∃ p ∈ regionPts imgB (koki_label_image imgB 0 junk0)
        (imgB.height * imgB.width) (0+1),
      p.2 = ((koki_label_image imgB 0 junk0).clips.getD 0
        ⟨0, ⟨0, 0⟩, ⟨0, 0⟩⟩).max.y)) :=
  ⟨by simp, by decide, by rw [koki_eval_zero]; decide,
    by rw [koki_eval_zero]; decide,
    C5_bounding_box imgB 0 0 junk0 (by simp) (by decide) 0
      (by rw [koki_eval_zero]; decide) (by rw [koki_eval_zero]; decide)⟩

/-- C6 is refuted: the constructor performs no dimension validation — for
zero width or zero height it still returns a labelled image carrying the
malformed dimensions, rather than failing. -/
theorem C6_counterexample :
    (koki_labelled_image_new 0 5 junk0).w = 0 ∧
    (koki_labelled_image_new 0 5 junk0).h = 5 ∧
    (koki_labelled_image_new 7 0 junk0).w = 7 ∧
    (koki_labelled_image_new 7 0 junk0).h = 0 :=
  ⟨rfl, rfl, rfl, rfl⟩

/-- C6 (amended): construction is total and unvalidated: for *every* pair
of dimensions, zero included, the constructor returns a labelled image with
exactly those dimensions, empty alias and clip arrays, and a zeroed
sentinel ring. -/
theorem C6_constructor_total (w h : Nat) (junk : Nat → Nat) :
    (koki_labelled_image_new w h junk).w = w ∧
    (koki_labelled_image_new w h junk).h = h ∧
    (koki_labelled_image_new w h junk).aliases = [] ∧
    (koki_labelled_image_new w h junk).clips = [] ∧
    (∀ idx, RingIdx w h idx →
      (koki_labelled_image_new w h junk).data idx = 0) :=
  ⟨rfl, rfl, rfl, rfl, fun idx hidx => new_data_ring w h junk idx hidx⟩

theorem C6_constructor_total_witness :
    (koki_labelled_image_new 0 5 junk0).aliases = [] ∧
    RingIdx 0 5 0 ∧ (koki_labelled_image_new 0 5 junk0).data 0 = 0 :=
  ⟨(C6_constructor_total 0 5 junk0).2.2.1, by decide,
    (C6_constructor_total 0 5 junk0).2.2.2.2 0 (by decide)⟩

/-- C7: in the North-East-merge branch with both West and North-West
labelled, the class merged with North-East is North-West's (not West's):
both labels are resolved to canonical ids, every alias-table slot holding
the larger canonical id is rewritten to the smaller one `lo`, and the
current pixel is assigned `lo`. -/
theorem C7_merge_uses_NW (image : IplImage) (t3 : Nat)
    (li : koki_labelled_image_t) (x y : Nat)
    (hfg : above_threshold image x y t3 = false)
    (hN : get_connected_label li x y .N = 0)
    (hNE : get_connected_label li x y .NE > 0)
    (hW : get_connected_label li x y .W > 0)
    (hNW : get_connected_label li x y .NW > 0)
    (hNEle : get_connected_label li x y .NE ≤ li.aliases.length)
    (hNWle : get_connected_label li x y .NW ≤ li.aliases.length)
    (halias_pos : ∀ i, i < li.aliases.length → 1 ≤ li.aliases.getD i 0)
    (hflat : ∀ i, i < li.aliases.length →
      li.aliases.getD (li.aliases.getD i 0 - 1) 0 = li.aliases.getD i 0) :
    KOKI_LABELLED_IMAGE_LABEL (label_pixel image li x y t3) x y =
      Nat.min (resolve li (get_connected_label li x y .NE))
        (resolve li (get_connected_label li x y .NW)) ∧
    (label_pixel image li x y t3).aliases =
      li.aliases.map (fun a =>
        if a = Nat.max (resolve li (get_connected_label li x y .NE))
            (resolve li (get_connected_label li x y .NW)) then
          Nat.min (resolve li (get_connected_label li x y .NE))
            (resolve li (get_connected_label li x y .NW))
        else a) := by
  have hml := label_pixel_merge_eq image li x y t3 hfg hN hNE (Or.inl hW)
    (li.aliases.getD (get_connected_label li x y .NE - 1) 0)
    (li.aliases.getD (get_connected_label li x y .NW - 1) 0)
    rfl ((if_pos hNW).symm)
  have hl1pos : 1 ≤ li.aliases.getD (get_connected_label li x y .NE - 1) 0 :=
    halias_pos _ (by omega)
  have hl2pos : 1 ≤ li.aliases.getD (get_connected_label li x y .NW - 1) 0 :=
    halias_pos _ (by omega)
  have hfl1 := hflat (get_connected_label li x y .NE - 1) (by omega)
  have hfl2 := hflat (get_connected_label li x y .NW - 1) (by omega)
  refine ⟨?_, hml.1⟩
  have hread : KOKI_LABELLED_IMAGE_LABEL (label_pixel image li x y t3) x y =
      gridAt (set_label li x y
        (Nat.min (li.aliases.getD (get_connected_label li x y .NE - 1) 0)
          (li.aliases.getD (get_connected_label li x y .NW - 1) 0)))
        (x, y) := by
    show (label_pixel image li x y t3).data
        ((y+1) * ((label_pixel image li x y t3).w + 2) + (x+1)) = _
    rw [label_pixel_w, hml.2]
    show _ = (set_label li x y _).data
      ((y+1) * ((set_label li x y _).w + 2) + (x+1))
    rw [set_label_w]
  rw [hread, gridAt_set_label_self]
  show (if Nat.min (li.aliases.getD (get_connected_label li x y .NE - 1) 0)
        (li.aliases.getD (get_connected_label li x y .NW - 1) 0) = 0 then 0
      else li.aliases.getD
        (Nat.min (li.aliases.getD (get_connected_label li x y .NE - 1) 0)
          (li.aliases.getD (get_connected_label li x y .NW - 1) 0) - 1) 0) =
    Nat.min (li.aliases.getD (get_connected_label li x y .NE - 1) 0)
      (li.aliases.getD (get_connected_label li x y .NW - 1) 0)
  rcases Nat.le_total (li.aliases.getD (get_connected_label li x y .NE - 1) 0)
      (li.aliases.getD (get_connected_label li x y .NW - 1) 0) with hle | hle
  · have hmeq : Nat.min
        (li.aliases.getD (get_connected_label li x y .NE - 1) 0)
        (li.aliases.getD (get_connected_label li x y .NW - 1) 0) =
        li.aliases.getD (get_connected_label li x y .NE - 1) 0 :=
      Nat.min_eq_left hle
    rw [hmeq]
    have h0 : ¬ (li.aliases.getD (get_connected_label li x y .NE - 1) 0
        = 0) := by omega
    rw [if_neg h0]
    exact hfl1
  · have hmeq : Nat.min
        (li.aliases.getD (get_connected_label li x y .NE - 1) 0)
        (li.aliases.getD (get_connected_label li x y .NW - 1) 0) =
        li.aliases.getD (get_connected_label li x y .NW - 1) 0 :=
      Nat.min_eq_right hle
    rw [hmeq]
    have h0 : ¬ (li.aliases.getD (get_connected_label li x y .NW - 1) 0
        = 0) := by omega
    rw [if_neg h0]
    exact hfl2

theorem C7_merge_uses_NW_witness :
    above_threshold imgC 1 1 0 = false ∧
    get_connected_label liC7 1 1 .N = 0 ∧
    get_connected_label liC7 1 1 .NE > 0 ∧
    get_connected_label liC7 1 1 .W > 0 ∧
    get_connected_label liC7 1 1 .NW > 0 ∧
    (KOKI_LABELLED_IMAGE_LABEL (label_pixel imgC liC7 1 1 0) 1 1 =
      Nat.min (resolve liC7 (get_connected_label liC7 1 1 .NE))
        (resolve liC7 (get_connected_label liC7 1 1 .NW)) ∧
    (label_pixel imgC liC7 1 1 0).aliases =
      liC7.aliases.map (fun a =>
        if a = Nat.max (resolve liC7 (get_connected_label liC7 1 1 .NE))
            (resolve liC7 (get_connected_label liC7 1 1 .NW)) then
          Nat.min (resolve liC7 (get_connected_label liC7 1 1 .NE))
            (resolve liC7 (get_connected_label liC7 1 1 .NW))
        else a)) :=
  ⟨by decide, by decide, by decide, by decide, by decide,
    C7_merge_uses_NW imgC 0 liC7 1 1 (by decide) (by decide) (by decide)
      (by decide) (by decide) (by decide) (by decide) (by decide) (by decide)⟩

/-- C8: every cell of the outermost ring of the padded label grid is 0
after construction and stays 0 at every point of the labelling pass and in
the final result of `koki_label_image` (the passes only write interior
cells). -/
theorem C8_sentinel_ring (image : IplImage) (threshold : ℚ) (t3 : Nat)
    (junk : Nat → Nat) (ht3 : t3 = Int.toNat ⌊255 * threshold * 3⌋)
    (Hsz : image.width * image.height < 32768) :
    RingZero (koki_labelled_image_new image.width image.height junk) ∧
    (∀ n, n ≤ image.width * image.height →
      RingZero (runUpto image t3 junk n)) ∧
    RingZero (koki_label_image image threshold junk) := by
  refine ⟨(loopInv_zero image t3 junk).ring, ?_, ?_⟩
  · intro n hn
    exact (loopInv_runUpto image t3 junk Hsz n hn).ring
  · rw [final_eval image threshold t3 junk ht3, core_eq]
    exact (loopInv_full image t3 junk Hsz).ring

theorem C8_sentinel_ring_witness :
    (0 : Nat) = Int.toNat ⌊255 * (0 : ℚ) * 3⌋ ∧
    imgA.width * imgA.height < 32768 ∧
    (RingZero (koki_labelled_image_new imgA.width imgA.height junk0) ∧
    (∀ n, n ≤ imgA.width * imgA.height →
      RingZero (runUpto imgA 0 junk0 n)) ∧
    RingZero (koki_label_image imgA 0 junk0)) :=
  ⟨by simp, by decide, C8_sentinel_ring imgA 0 0 junk0 (by simp) (by decide)⟩

/-! ### Mass conservation helpers -/

theorem sum_map_mass_eq (l : List koki_clip_region_t) :
    (l.map (fun c => c.mass)).sum =
      ∑ j ∈ Finset.range l.length, (l.getD j ⟨0, ⟨0, 0⟩, ⟨0, 0⟩⟩).mass := by
  induction l with
  | nil => simp
  | cons c l ih =>
    rw [List.map_cons, List.sum_cons, List.length_cons,
      Finset.sum_range_succ']
    simp only [List.getD_cons_succ, List.getD_cons_zero]
    rw [ih]
    omega

theorem fgSet_card (image : IplImage) (t3 : Nat) (junk : Nat → Nat)
    (Hsz : image.width * image.height < 32768) :
    ∑ j ∈ Finset.range (max_alias_of
        (runUpto image t3 junk (image.height * image.width)).aliases),
      (regionPts image (runUpto image t3 junk
          (image.height * image.width))
        (image.height * image.width) (j+1)).card =
      ((Finset.range image.width ×ˢ Finset.range image.height).filter
        (fun p => Fg image t3 p)).card := by
  have H := loopInv_full image t3 junk Hsz
  have hmemf : ∀ p ∈ (Finset.range image.width ×ˢ
      Finset.range image.height).filter (fun p => Fg image t3 p),
      cls (runUpto image t3 junk (image.height * image.width)) p ∈
        (Finset.range (max_alias_of
          (runUpto image t3 junk (image.height * image.width)).aliases)).image
          (fun j => j + 1) := by
    intro p hp
    rw [Finset.mem_filter] at hp
    have hproc := processed_full image p hp.2.1 hp.2.2.1
    have hgb := H.fg_pos p hproc hp.2
    have h1 : 1 ≤ cls (runUpto image t3 junk
        (image.height * image.width)) p :=
      H.resolve_ge _ hgb.1 hgb.2
    have h2 : cls (runUpto image t3 junk (image.height * image.width)) p ≤
        max_alias_of
          (runUpto image t3 junk (image.height * image.width)).aliases :=
      le_max_alias_of _ _ (getD_mem' _ _ _ (by omega))
    refine Finset.mem_image.mpr
      ⟨cls (runUpto image t3 junk (image.height * image.width)) p - 1,
        Finset.mem_range.mpr (by omega), by omega⟩
  rw [Finset.card_eq_sum_card_fiberwise hmemf, Finset.sum_image
    (fun a _ b _ hab => by omega)]
  refine Finset.sum_congr rfl ?_
  intro j _
  congr 1
  ext p
  constructor
  · intro hp
    simp only [regionPts, Finset.mem_filter] at hp
    obtain ⟨hmem, hproc, hg, hc⟩ := hp
    rw [Finset.mem_filter]
    exact ⟨Finset.mem_filter.mpr ⟨hmem, H.fg_of_pos p hproc hg⟩, hc⟩
  · intro hp
    rw [Finset.mem_filter] at hp
    obtain ⟨hp1, hc⟩ := hp
    rw [Finset.mem_filter] at hp1
    obtain ⟨hmem, hfg⟩ := hp1
    have hb := Finset.mem_product.mp hmem
    rw [Finset.mem_range] at hb
    have hb2 := Finset.mem_range.mp hb.2
    have hproc := processed_full image p hb.1 hb2
    have hgb := H.fg_pos p hproc hfg
    simp only [regionPts, Finset.mem_filter]
    exact ⟨hmem, hproc, by omega, hc⟩

/-- C9: mass is conserved: after `koki_label_image` completes, the sum of
the `mass` fields over all statistics records equals the number of pixels
classified as foreground. -/
theorem C9_mass_conserved (image : IplImage) (threshold : ℚ) (t3 : Nat)
    (junk : Nat → Nat) (ht3 : t3 = Int.toNat ⌊255 * threshold * 3⌋)
    (Hsz : image.width * image.height < 32768) :
    ((koki_label_image image threshold junk).clips.map
      (fun c => c.mass)).sum =
      ((Finset.range image.width ×ˢ Finset.range image.height).filter
        (fun p => Fg image t3 p)).card := by
  rw [final_eval image threshold t3 junk ht3, final_clips, sum_map_mass_eq]
  have S := statsInv_full image t3 junk Hsz
  rw [← fgSet_card image t3 junk Hsz]
  rw [S.len]
  refine Finset.sum_congr rfl ?_
  intro j hj
  exact S.mass j (by rw [S.len]; exact Finset.mem_range.mp hj)

theorem C9_mass_conserved_witness :
    (0 : Nat) = Int.toNat ⌊255 * (0 : ℚ) * 3⌋ ∧
    imgA.width * imgA.height < 32768 ∧
    ((koki_label_image imgA 0 junk0).clips.map (fun c => c.mass)).sum =
      ((Finset.range imgA.width ×ˢ Finset.range imgA.height).filter
        (fun p => Fg imgA 0 p)).card :=
  ⟨by simp, by decide, C9_mass_conserved imgA 0 0 junk0 (by simp) (by decide)⟩

/-- C10: throughout a run every alias slot satisfies
`1 ≤ aliases[i-1] ≤ i`; every processed foreground pixel stores a strictly
positive label within the allocated range (so the `set_label` assertion
holds), and in the final result the statistics index `alias - 1` of every
labelled pixel is within the allocated records. -/
theorem C10_bounds (image : IplImage) (threshold : ℚ) (t3 : Nat)
    (junk : Nat → Nat) (ht3 : t3 = Int.toNat ⌊255 * threshold * 3⌋)
    (Hsz : image.width * image.height < 32768) :
    (∀ n, n ≤ image.width * image.height → ∀ i,
      i < (runUpto image t3 junk n).aliases.length →
      1 ≤ (runUpto image t3 junk n).aliases.getD i 0 ∧
        (runUpto image t3 junk n).aliases.getD i 0 ≤ i + 1) ∧
    (∀ n, n ≤ image.width * image.height → ∀ p,
      Processed image.width n p → Fg image t3 p →
      1 ≤ gridAt (runUpto image t3 junk n) p ∧
        gridAt (runUpto image t3 junk n) p ≤
          (runUpto image t3 junk n).aliases.length) ∧
    (∀ p : Nat × Nat, p.1 < image.width → p.2 < image.height →
      gridAt (koki_label_image image threshold junk) p ≠ 0 →
      1 ≤ cls (koki_label_image image threshold junk) p ∧
        cls (koki_label_image image threshold junk) p - 1 <
          (koki_label_image image threshold junk).clips.length) := by
  refine ⟨?_, ?_, ?_⟩
  · intro n hn i hi
    have H := loopInv_runUpto image t3 junk Hsz n hn
    exact ⟨H.alias_pos i hi, H.alias_le i hi⟩
  · intro n hn p hproc hfg
    exact (loopInv_runUpto image t3 junk Hsz n hn).fg_pos p hproc hfg
  · intro p h1 h2 hpos
    rw [final_eval image threshold t3 junk ht3] at hpos ⊢
    rw [final_gridAt] at hpos
    rw [final_cls, final_clips]
    have H := loopInv_full image t3 junk Hsz
    have S := statsInv_full image t3 junk Hsz
    have hproc := processed_full image p h1 h2
    have hfg := H.fg_of_pos p hproc hpos
    have hgb := H.fg_pos p hproc hfg
    have h1c : 1 ≤ cls (runUpto image t3 junk
        (image.height * image.width)) p :=
      H.resolve_ge _ hgb.1 hgb.2
    have hcle : cls (runUpto image t3 junk (image.height * image.width)) p ≤
        max_alias_of
          (runUpto image t3 junk (image.height * image.width)).aliases :=
      le_max_alias_of _ _ (getD_mem' _ _ _ (by omega))
    rw [S.len]
    exact ⟨h1c, by omega⟩

theorem C10_bounds_witness :
    (0 : Nat) = Int.toNat ⌊255 * (0 : ℚ) * 3⌋ ∧
    imgA.width * imgA.height < 32768 ∧
    ((∀ n, n ≤ imgA.width * imgA.height → ∀ i,
      i < (runUpto imgA 0 junk0 n).aliases.length →
      1 ≤ (runUpto imgA 0 junk0 n).aliases.getD i 0 ∧
        (runUpto imgA 0 junk0 n).aliases.getD i 0 ≤ i + 1) ∧
    (∀ n, n ≤ imgA.width * imgA.height → ∀ p,
      Processed imgA.width n p → Fg imgA 0 p →
      1 ≤ gridAt (runUpto imgA 0 junk0 n) p ∧
        gridAt (runUpto imgA 0 junk0 n) p ≤
          (runUpto imgA 0 junk0 n).aliases.length) ∧
    (∀ p : Nat × Nat, p.1 < imgA.width → p.2 < imgA.height →
      gridAt (koki_label_image imgA 0 junk0) p ≠ 0 →
      1 ≤ cls (koki_label_image imgA 0 junk0) p ∧
        cls (koki_label_image imgA 0 junk0) p - 1 <
          (koki_label_image imgA 0 junk0).clips.length)) :=
  ⟨by simp, by decide, C10_bounds imgA 0 0 junk0 (by simp) (by decide)⟩
